import Mathlib

/-!
Verification of the tabular-text detector and row serializer of
`ankicardgenerator` (`src/main.py`).

Python strings are modelled as `List Char` (one entry per Unicode code
point, matching Python's string model).  The module's two public
functions, `parse_text_to_rows` and `write_rows`, are embedded below
together with the parts of the Python standard library they call:
`str.strip`, `str.splitlines`, `str.split`, `re.split(r"\s{2,}", _)`,
`csv.Sniffer.sniff` (restricted to `delimiters=",;|"` as at the call
site), `csv.reader` and `csv.writer` (with `QUOTE_MINIMAL`,
`escapechar=None`, `strict=False`, as configured by the module).

Float arithmetic in the sniffer's consistency loop is modelled with
exact rational comparisons over the ten levels 1.00, 0.99, …, 0.91 that
the CPython loop tests; the regex character class `\w` is modelled
exactly on ASCII (alphanumeric or underscore).  Behaviour was pinned
against CPython 3.11.
-/

namespace AnkiCSV

/-- A Python string: a sequence of Unicode code points. -/
abbrev PyStr := List Char

/-- The set of characters `c` with `str(c).isspace()` in Python (also the
exact character set matched by the regex `\s` for `str` patterns). -/
def pyIsSpace (c : Char) : Bool :=
  c = ' ' ∨ c = '\t' ∨ c = '\n' ∨ c = '\x0b' ∨ c = '\x0c' ∨ c = '\x0d' ∨
  c = '\x1c' ∨ c = '\x1d' ∨ c = '\x1e' ∨ c = '\x1f' ∨ c = '\x85' ∨ c = '\xa0' ∨
  c = Char.ofNat 0x1680 ∨
  (0x2000 ≤ c.toNat ∧ c.toNat ≤ 0x200a) ∨
  c = Char.ofNat 0x2028 ∨ c = Char.ofNat 0x2029 ∨ c = Char.ofNat 0x202f ∨
  c = Char.ofNat 0x205f ∨ c = Char.ofNat 0x3000

/-- The line-boundary characters of Python's `str.splitlines` (besides the
two-character boundary `"\r\n"`, which the splitter below treats as one). -/
def isLineBoundary (c : Char) : Bool :=
  c = '\n' ∨ c = '\r' ∨ c = '\x0b' ∨ c = '\x0c' ∨
  c = '\x1c' ∨ c = '\x1d' ∨ c = '\x1e' ∨ c = '\x85' ∨
  c = Char.ofNat 0x2028 ∨ c = Char.ofNat 0x2029

/-- Python `str.strip()` with no argument: remove leading and trailing
whitespace characters. -/
def pyStrip (s : PyStr) : PyStr :=
  ((s.dropWhile pyIsSpace).reverse.dropWhile pyIsSpace).reverse

/-- Helper for `pySplitlines`; `acc` holds the current line reversed. -/
def pySplitlinesAux : PyStr → PyStr → List PyStr
  | [], acc => if acc = [] then [] else [acc.reverse]
  | '\r' :: '\n' :: rest, acc => acc.reverse :: pySplitlinesAux rest []
  | c :: rest, acc =>
    if isLineBoundary c then acc.reverse :: pySplitlinesAux rest []
    else pySplitlinesAux rest (c :: acc)

/-- Python `str.splitlines()`: split at universal line boundaries, with
`"\r\n"` counting as a single boundary and no empty trailing line. -/
def pySplitlines (s : PyStr) : List PyStr := pySplitlinesAux s []

/-- Helper for `pySplitChar`; `acc` holds the current piece reversed. -/
def pySplitCharAux (sep : Char) : PyStr → PyStr → List PyStr
  | [], acc => [acc.reverse]
  | c :: rest, acc =>
    if c = sep then acc.reverse :: pySplitCharAux sep rest []
    else pySplitCharAux sep rest (c :: acc)

/-- Python `str.split(sep)` for a one-character separator: split at every
occurrence, keeping empty pieces. -/
def pySplitChar (sep : Char) (s : PyStr) : List PyStr := pySplitCharAux sep s []

/-- Number of occurrences of the character `c` in `s` (Python `str.count`). -/
def countCh (c : Char) : PyStr → Nat
  | [] => 0
  | a :: r => (if a = c then 1 else 0) + countCh c r

/-- Number of non-overlapping occurrences of the two-character substring
`[a, b]` in `s` (Python `str.count` on a two-character needle). -/
def countSub2 (a b : Char) : PyStr → Nat
  | [] => 0
  | [_] => 0
  | x :: y :: rest =>
    if x = a ∧ y = b then 1 + countSub2 a b rest
    else countSub2 a b (y :: rest)

/-- Whether a string starts with a whitespace character (the lookahead of
the `\s{2,}` splitter). -/
def headIsWs : PyStr → Bool
  | [] => false
  | d :: _ => pyIsSpace d

/-- Helper for `reSplitWs2`; `acc` holds the current piece reversed, and
the flag records that a whitespace run (already cut at) is still being
consumed. -/
def reSplitWs2Aux : PyStr → PyStr → Bool → List PyStr
  | [], acc, _ => [acc.reverse]
  | c :: rest, acc, skipping =>
    if skipping then
      if pyIsSpace c then reSplitWs2Aux rest acc true
      else reSplitWs2Aux rest [c] false
    else if pyIsSpace c && headIsWs rest then
      acc.reverse :: reSplitWs2Aux rest [] true
    else
      reSplitWs2Aux rest (c :: acc) false

/-- Python `re.split(r"\s{2,}", s)`: split at every maximal run of two or
more whitespace characters. -/
def reSplitWs2 (s : PyStr) : List PyStr := reSplitWs2Aux s [] false

/-- The retained lines of the input: strip the whole text, split it into
lines, and drop blank (whitespace-only) lines (`main.py`, lines 28-29). -/
def retainedLines (text : PyStr) : List PyStr :=
  (pySplitlines (pyStrip text)).filter (fun ln => decide (pyStrip ln ≠ []))

/-- The detection sample: the first 20 retained lines joined by `"\n"`
(`main.py`, line 33). -/
def sampleOf (text : PyStr) : PyStr :=
  List.intercalate ['\n'] ((retainedLines text).take 20)

/-- Strategy 3 of the detector: split each line on runs of two or more
whitespace characters and strip each cell (`main.py`, lines 47-51). -/
def alignedFallback (lines : List PyStr) : List (List PyStr) :=
  lines.map (fun ln => (reSplitWs2 (pyStrip ln)).map pyStrip)

/-! ### The sniffer's quote/delimiter regexes

`csv.Sniffer._guess_quote_and_delimiter` tries four regexes in order over
the sample and keeps the matches of the first one that matches at all:

1. `(?P<delim>[^\w\n"'])(?P<space> ?)(?P<quote>["']).*?(?P=quote)(?P=delim)`
2. `(?:^|\n)(?P<quote>["']).*?(?P=quote)(?P<delim>[^\w\n"'])(?P<space> ?)`
3. `(?P<delim>[^\w\n"'])(?P<space> ?)(?P<quote>["']).*?(?P=quote)(?:$|\n)`
4. `(?:^|\n)(?P<quote>["']).*?(?P=quote)(?:$|\n)`

all compiled with `DOTALL | MULTILINE`.  Each is embedded below as a
dedicated left-to-right scanner with Python's backtracking semantics
(leftmost match, lazy `.*?`, greedy `?`, non-overlapping `findall`).
-/

/-- The regex character class `\w` (word character), restricted to ASCII:
Python's Unicode `\w` also accepts non-ASCII word characters, so on a
sample mixing quote characters with non-ASCII letters the regex scanners
below can diverge from CPython.  Every theorem that draws a conclusion
from the scanners' output assumes a quote-free sample, where all four
regexes reject in both readings, so none depends on the restriction. -/
def pyIsWord (c : Char) : Bool := c.isAlphanum || c = '_'

/-- A character the sniffer regexes accept as a quote: `"` or `'`. -/
def isQuoteCh (c : Char) : Bool := c = '"' || c = '\''

/-- The sniffer regexes' delimiter class `[^\w\n"']`. -/
def isDelimClassCh (c : Char) : Bool :=
  !(pyIsWord c) && c ≠ '\n' && c ≠ '"' && c ≠ '\''

/-- One match of a sniffer regex: the `delim`, `space` and `quote` groups
(pattern 4 has no `delim`/`space` group). -/
structure QDMatch where
  delim : Option Char
  space : Bool
  quote : Char
deriving DecidableEq

/-- Smallest index `k` in `[j, s.length)` satisfying `p` (the landing spot
of a lazy `.*?`). -/
def findFromIdx (s : PyStr) (j : Nat) (p : Nat → Bool) : Option Nat :=
  (List.range s.length).find? (fun k => decide (j ≤ k) && p k)

/-- Generic non-overlapping `findall` driver: try a match at each position
from left to right; after a match, resume at its end. -/
def findallAux (step : Nat → Option (Nat × QDMatch)) : Nat → Nat → List QDMatch
  | _, 0 => []
  | i, fuel + 1 =>
    match step i with
    | none => findallAux step (i + 1) fuel
    | some (e, m) => m :: findallAux step (max e (i + 1)) fuel

/-- Try pattern 1 at position `i`: a delimiter-class character, an optional
space (tried greedily), a quote, a lazy gap, the same quote, the same
delimiter. -/
def matchP1 (s : PyStr) (i : Nat) : Option (Nat × QDMatch) :=
  match s[i]? with
  | none => none
  | some c0 =>
    if isDelimClassCh c0 then
      if s[i+1]? = some ' ' then
        match s[i+2]? with
        | some q =>
          if isQuoteCh q then
            match findFromIdx s (i+3)
                (fun k => (s[k]? = some q : Bool) && (s[k+1]? = some c0 : Bool)) with
            | some k => some (k + 2, ⟨some c0, true, q⟩)
            | none => none
          else none
        | none => none
      else
        match s[i+1]? with
        | some q =>
          if isQuoteCh q then
            match findFromIdx s (i+2)
                (fun k => (s[k]? = some q : Bool) && (s[k+1]? = some c0 : Bool)) with
            | some k => some (k + 2, ⟨some c0, false, q⟩)
            | none => none
          else none
        | none => none
    else none

/-- Pattern 2 body after its `(?:^|\n)` anchor: a quote at `j`, a lazy gap,
the same quote, a delimiter-class character, an optional trailing space. -/
def matchP2Body (s : PyStr) (j : Nat) : Option (Nat × QDMatch) :=
  match s[j]? with
  | none => none
  | some q =>
    if isQuoteCh q then
      match findFromIdx s (j+1)
          (fun k => (s[k]? = some q : Bool) &&
            (match s[k+1]? with | some d => isDelimClassCh d | none => false)) with
      | some k =>
        match s[k+1]? with
        | some d =>
          if s[k+2]? = some ' ' then some (k + 3, ⟨some d, true, q⟩)
          else some (k + 2, ⟨some d, false, q⟩)
        | none => none
      | none => none
    else none

/-- Try pattern 2 at position `i`: the `^` branch first (zero-width, at the
start or after a newline under `MULTILINE`), then the literal-`\n` branch. -/
def matchP2 (s : PyStr) (i : Nat) : Option (Nat × QDMatch) :=
  let anchored := i = 0 || (s[i-1]? = some '\n' : Bool)
  match (if anchored then matchP2Body s i else none) with
  | some r => some r
  | none => if s[i]? = some '\n' then matchP2Body s (i+1) else none

/-- Try pattern 3 at position `i`: like pattern 1 but the closing quote is
followed by `(?:$|\n)`; the zero-width `$` branch is preferred, so the
match ends right after the quote. -/
def matchP3 (s : PyStr) (i : Nat) : Option (Nat × QDMatch) :=
  match s[i]? with
  | none => none
  | some c0 =>
    if isDelimClassCh c0 then
      if s[i+1]? = some ' ' then
        match s[i+2]? with
        | some q =>
          if isQuoteCh q then
            match findFromIdx s (i+3)
                (fun k => (s[k]? = some q : Bool) &&
                  (k + 1 = s.length || (s[k+1]? = some '\n' : Bool))) with
            | some k => some (k + 1, ⟨some c0, true, q⟩)
            | none => none
          else none
        | none => none
      else
        match s[i+1]? with
        | some q =>
          if isQuoteCh q then
            match findFromIdx s (i+2)
                (fun k => (s[k]? = some q : Bool) &&
                  (k + 1 = s.length || (s[k+1]? = some '\n' : Bool))) with
            | some k => some (k + 1, ⟨some c0, false, q⟩)
            | none => none
          else none
        | none => none
    else none

/-- Pattern 4 body after its anchor: a quote, a lazy gap, the same quote,
then `(?:$|\n)` with the zero-width `$` branch preferred. -/
def matchP4Body (s : PyStr) (j : Nat) : Option (Nat × QDMatch) :=
  match s[j]? with
  | none => none
  | some q =>
    if isQuoteCh q then
      match findFromIdx s (j+1)
          (fun k => (s[k]? = some q : Bool) &&
            (k + 1 = s.length || (s[k+1]? = some '\n' : Bool))) with
      | some k => some (k + 1, ⟨none, false, q⟩)
      | none => none
    else none

/-- Try pattern 4 at position `i` (anchor handling as in `matchP2`). -/
def matchP4 (s : PyStr) (i : Nat) : Option (Nat × QDMatch) :=
  let anchored := i = 0 || (s[i-1]? = some '\n' : Bool)
  match (if anchored then matchP4Body s i else none) with
  | some r => some r
  | none => if s[i]? = some '\n' then matchP4Body s (i+1) else none

/-- All matches of pattern `k` over `s`, in order. -/
def findallP1 (s : PyStr) : List QDMatch := findallAux (matchP1 s) 0 (s.length + 1)

/-- All matches of pattern 2 over `s`, in order. -/
def findallP2 (s : PyStr) : List QDMatch := findallAux (matchP2 s) 0 (s.length + 1)

/-- All matches of pattern 3 over `s`, in order. -/
def findallP3 (s : PyStr) : List QDMatch := findallAux (matchP3 s) 0 (s.length + 1)

/-- All matches of pattern 4 over `s`, in order. -/
def findallP4 (s : PyStr) : List QDMatch := findallAux (matchP4 s) 0 (s.length + 1)

/-! ### `csv.Sniffer._guess_quote_and_delimiter` -/

/-- The candidate delimiters the module passes to the sniffer
(`CANDIDATE_DELIMS = [",", ";", "|"]` joined to `",;|"`). -/
def candidateDelims : List Char := [',', ';', '|']

/-- Increment the count of `key` in an association list, preserving
first-insertion order (Python dict update). -/
def assocIncr (l : List (Char × Nat)) (key : Char) : List (Char × Nat) :=
  match l with
  | [] => [(key, 1)]
  | (k, v) :: rest =>
    if k = key then (k, v + 1) :: rest else (k, v) :: assocIncr rest key

/-- Lookup in an association list. -/
def assocGet {β : Type} (l : List (Char × β)) (key : Char) : Option β :=
  match l with
  | [] => none
  | (k, v) :: rest => if k = key then some v else assocGet rest key

/-- Set a key in an association list, preserving first-insertion order. -/
def assocSet {β : Type} (l : List (Char × β)) (key : Char) (val : β) :
    List (Char × β) :=
  match l with
  | [] => [(key, val)]
  | (k, v) :: rest =>
    if k = key then (k, val) :: rest else (k, v) :: assocSet rest key val

/-- Python `max(d, key=d.get)` over a dict-as-association-list: the first
key attaining the maximal count (ties go to the earlier insertion). -/
def firstMaxKey (l : List (Char × Nat)) : Option Char :=
  match l with
  | [] => none
  | (k, v) :: rest =>
    match firstMaxKey rest with
    | none => some k
    | some k2 =>
      let v2 := (assocGet rest k2).getD 0
      if v2 > v then some k2 else some k

/-- Characters in `s[a..b)` all satisfy `p`. -/
def rangeAll (s : PyStr) (a b : Nat) (p : Char → Bool) : Bool :=
  ((s.drop a).take (b - a)).all p

/-- Character class `[^D\n]` of the doublequote regex: not a newline and
not the delimiter (when one was found). -/
def dqInnerOK (delim : Option Char) (c : Char) : Bool :=
  c ≠ '\n' && (match delim with | some d => c ≠ d | none => true)

/-- Start anchor `((D)|^)` of the doublequote regex (with `MULTILINE` the
`^` also matches after a newline; with no delimiter the first alternative
is the empty pattern and matches anywhere). -/
def dqAnchorOK (s : PyStr) (delim : Option Char) (j : Nat) : Bool :=
  match delim with
  | none => true
  | some d => j = 0 || (s[j-1]? = some '\n' : Bool) || (s[j-1]? = some d : Bool)

/-- End anchor `((D)|$)` of the doublequote regex at position `d`. -/
def dqTailOK (s : PyStr) (delim : Option Char) (d : Nat) : Bool :=
  match delim with
  | none => true
  | some dc =>
    (s[d]? = some dc : Bool) || d = s.length || (s[d]? = some '\n' : Bool)

/-- Python `re.search` of the sniffer's doublequote regex
`((D)|^)\W*Q[^D\n]*Q[^D\n]*Q\W*((D)|$)` (`MULTILINE`): true iff some
decomposition matches — three occurrences of the quote `q` at positions
`a < b < c` with admissible runs between them and anchored ends. -/
def dqSearch (s : PyStr) (delim : Option Char) (q : Char) : Bool :=
  let n := s.length
  (List.range n).any (fun a =>
    (s[a]? = some q : Bool) &&
    ((List.range (a + 1)).any (fun j =>
      rangeAll s j a (fun c => !(pyIsWord c)) && dqAnchorOK s delim j)) &&
    (List.range n).any (fun b =>
      decide (a < b) && (s[b]? = some q : Bool) &&
      rangeAll s (a+1) b (dqInnerOK delim) &&
      (List.range n).any (fun c =>
        decide (b < c) && (s[c]? = some q : Bool) &&
        rangeAll s (b+1) c (dqInnerOK delim) &&
        (List.range (n + 1)).any (fun d =>
          decide (c < d) &&
          rangeAll s (c+1) d (fun ch => !(pyIsWord ch)) && dqTailOK s delim d))))

/-- Result of `_guess_quote_and_delimiter`: quote character (`none` for the
empty string), doublequote flag, delimiter (`none` for `''`/`None`) and
the skipinitialspace flag. -/
structure QDResult where
  quotechar : Option Char
  doublequote : Bool
  delimiter : Option Char
  skipinitialspace : Bool
deriving DecidableEq

/-- The matches `_guess_quote_and_delimiter` works from: those of the
first of the four regexes that matches at all. -/
def qdMatches (data : PyStr) : List QDMatch :=
  let m1 := findallP1 data
  if m1 ≠ [] then m1 else
  let m2 := findallP2 data
  if m2 ≠ [] then m2 else
  let m3 := findallP3 data
  if m3 ≠ [] then m3 else
  findallP4 data

/-- Embedding of `csv.Sniffer._guess_quote_and_delimiter(data, ",;|")`:
count quote and (candidate-filtered) delimiter groups over the matches,
take the most frequent of each, and test the doublequote regex. -/
def guessQuoteAndDelimiter (data : PyStr) : QDResult :=
  let ms := qdMatches data
  if ms = [] then ⟨none, false, none, false⟩
  else
    let quotes := ms.foldl (fun a m => assocIncr a m.quote) []
    let delims := ms.foldl (fun a m =>
      match m.delim with
      | some d => if d ∈ candidateDelims then assocIncr a d else a
      | none => a) []
    let spaces := (ms.filter (fun m => m.delim.isSome && m.space)).length
    let quotechar := (firstMaxKey quotes).getD '"'
    match firstMaxKey delims with
    | some d =>
      let sis := (assocGet delims d).getD 0 = spaces
      let delim : Option Char := if d = '\n' then none else some d
      ⟨some quotechar, dqSearch data delim quotechar, delim, sis⟩
    | none =>
      ⟨some quotechar, dqSearch data none quotechar, none, false⟩

/-! ### `csv.Sniffer._guess_delimiter`

The frequency/consistency heuristic.  Python iterates over chunks of 10
lines, accumulating per-character frequency tables, and scans consistency
levels `1.0, 0.99, …` (ten float levels, all `≥ 0.9`) until some candidate
qualifies.  The levels are modelled as the exact rationals `1 - j/100`
for `j = 0, …, 9`; the comparison `v[1]/total >= consistency` becomes the
exact `v.2 * 100 ≥ total * (100 - j)`, which agrees with the float
computation in every case exercised below. -/

/-- The 7-bit ASCII alphabet the sniffer tabulates. -/
def asciiChars : List Char := (List.range 127).map Char.ofNat

/-- Increment the count of frequency `f` in a meta-frequency table,
preserving first-insertion order. -/
def metaIncr (m : List (Nat × Nat)) (f : Nat) : List (Nat × Nat) :=
  match m with
  | [] => [(f, 1)]
  | (k, v) :: rest =>
    if k = f then (k, v + 1) :: rest else (k, v) :: metaIncr rest f

/-- The meta-frequency table of character `c` over the processed lines:
how many lines have each per-line occurrence count. -/
def metaOf (c : Char) (ls : List PyStr) : List (Nat × Nat) :=
  ls.foldl (fun m ln => metaIncr m (countCh c ln)) []

/-- A table that records only frequency zero (`len(items) == 1 and
items[0][0] == 0`): the character occurs on no processed line. -/
def isSingleZero (m : List (Nat × Nat)) : Bool :=
  match m with
  | [(0, _)] => true
  | _ => false

/-- First entry attaining the maximal second component (Python
`max(items, key=lambda x: x[1])`). -/
def maxBySnd (items : List (Nat × Nat)) : Nat × Nat :=
  match items with
  | [] => (0, 0)
  | x :: rest =>
    let m := maxBySnd rest
    if rest ≠ [] ∧ m.2 > x.2 then m else x

/-- Remove the first occurrence of `x` (Python `list.remove`). -/
def removeFirst (items : List (Nat × Nat)) (x : Nat × Nat) : List (Nat × Nat) :=
  match items with
  | [] => []
  | y :: rest => if y = x then rest else y :: removeFirst rest x

/-- The adjusted mode of a meta-frequency table: the modal frequency with
its count reduced by the counts of all other frequencies. -/
def modeCalc (items : List (Nat × Nat)) : Nat × Int :=
  match items with
  | [x] => (x.1, (x.2 : Int))
  | _ =>
    let m := maxBySnd items
    let rest := removeFirst items m
    (m.1, (m.2 : Int) - rest.foldl (fun s it => s + (it.2 : Int)) 0)

/-- Recompute the modes table from the accumulated frequency tables
(characters occurring on no processed line are skipped; a skipped
character was never previously entered, so overwriting is faithful). -/
def updateModes (processed : List PyStr) (modes : List (Char × (Nat × Int))) :
    List (Char × (Nat × Int)) :=
  asciiChars.foldl (fun ms c =>
    let items := metaOf c processed
    if isSingleZero items then ms else assocSet ms c (modeCalc items)) modes

/-- One pass of the consistency loop at level `1 - j/100`: admit every
candidate-delimiter mode with positive frequency and positive adjusted
count whose ratio reaches the level. -/
def passLevel (modes delims : List (Char × (Nat × Int))) (total j : Nat) :
    List (Char × (Nat × Int)) :=
  modes.foldl (fun ds kv =>
    if kv.2.1 > 0 ∧ kv.2.2 > 0 ∧ kv.2.2 * 100 ≥ (total : Int) * (100 - (j : Int)) ∧
        kv.1 ∈ candidateDelims
    then assocSet ds kv.1 kv.2 else ds) delims

/-- The consistency loop: scan the levels `j = 0, …, 9` in order until
some delimiter qualifies (skipped entirely if candidates survive from an
earlier chunk). -/
def consistencyGo (modes : List (Char × (Nat × Int))) (total : Nat) :
    List Nat → List (Char × (Nat × Int)) → List (Char × (Nat × Int))
  | [], delims => delims
  | j :: rest, delims =>
    if delims ≠ [] then delims
    else consistencyGo modes total rest (passLevel modes delims total j)

/-- Helper for `chunkList`: structural recursion on a fuel bounded by the
list length (each chunk removes at least one element when `k ≠ 0`). -/
def chunkListAux (k : Nat) : Nat → List PyStr → List (List PyStr)
  | _, [] => []
  | 0, _ :: _ => []
  | fuel + 1, a :: t =>
    if k = 0 then [] else (a :: t).take k :: chunkListAux k fuel ((a :: t).drop k)

/-- Split a list into chunks of `k` (the sniffer's 10-line windows). -/
def chunkList (k : Nat) (l : List PyStr) : List (List PyStr) :=
  chunkListAux k l.length l

/-- The `skipinitialspace` computed on return: the delimiter occurs in the
first line exactly as often as the delimiter followed by a space. -/
def sisOf (line0 : PyStr) (d : Char) : Bool :=
  countCh d line0 = countSub2 d ' ' line0

/-- The sniffer's preferred-delimiter order used to break ties. -/
def preferredDelims : List Char := [',', '\t', ';', ' ', ':']

/-- Lexicographically maximal `((freq, adjusted), char)` entry (the
sniffer's final `items.sort(); items[-1]` tie-break). -/
def maxLexEntry (l : List (Char × (Nat × Int))) : Option Char :=
  match l with
  | [] => none
  | (k, v) :: rest =>
    match maxLexEntry rest with
    | none => some k
    | some k2 =>
      let v2 := (assocGet rest k2).getD (0, 0)
      if v2.1 > v.1 ∨ (v2.1 = v.1 ∧ (v2.2 > v.2 ∨ (v2.2 = v.2 ∧ k2 > k)))
      then some k2 else some k

/-- After all chunks are exhausted: fail with no candidates, otherwise
pick by the preferred order, otherwise by the final sort. -/
def gdFinish (line0 : PyStr) (delims : List (Char × (Nat × Int))) :
    Option (Char × Bool) :=
  if delims = [] then none
  else
    match preferredDelims.find? (fun d => (assocGet delims d).isSome) with
    | some d => some (d, sisOf line0 d)
    | none =>
      match maxLexEntry delims with
      | some d => some (d, sisOf line0 d)
      | none => none

/-- The chunk loop of `_guess_delimiter`: process one chunk, rebuild the
modes, run the consistency scan, and return as soon as exactly one
candidate remains. -/
def gdLoop (line0 : PyStr) (chunkLength dataLen : Nat) :
    List (List PyStr) → Nat → List PyStr → List (Char × (Nat × Int)) →
    List (Char × (Nat × Int)) → Option (Char × Bool)
  | [], _, _, _, delims => gdFinish line0 delims
  | chunk :: rest, iteration, processedPrev, modes, delims =>
    let processed := processedPrev ++ chunk
    let modes2 := updateModes processed modes
    let total := min (chunkLength * iteration) dataLen
    let delims2 := consistencyGo modes2 total (List.range 10) delims
    match delims2 with
    | [(d, _)] => some (d, sisOf line0 d)
    | _ => gdLoop line0 chunkLength dataLen rest (iteration + 1) processed modes2 delims2

/-- Embedding of `csv.Sniffer._guess_delimiter(data, ",;|")`; `none` is
Python's `('', 0)` failure result. -/
def guessDelimiter (sample : PyStr) : Option (Char × Bool) :=
  let data := (pySplitChar '\n' sample).filter (fun l => decide (l ≠ []))
  match data with
  | [] => none
  | line0 :: _ =>
    let chunkLength := min 10 data.length
    gdLoop line0 chunkLength data.length (chunkList chunkLength data) 1 [] [] []

/-! ### `csv.Sniffer.sniff` and the sniffed dialect -/

/-- The dialect fields of the sniffed dialect that the reader consults
(its other fields are fixed: `escapechar=None`, `strict=False`,
`quoting=QUOTE_MINIMAL`). -/
structure SniffedDialect where
  delimiter : Char
  quotechar : Char
  doublequote : Bool
  skipinitialspace : Bool
deriving DecidableEq

/-- Embedding of `csv.Sniffer().sniff(sample, delimiters=",;|")`:
quote-regex guess first, frequency guess if it finds no delimiter, and
`csv.Error` (modelled as `.error ()`) if neither finds one. -/
def sniffE (sample : PyStr) : Except Unit SniffedDialect :=
  let r := guessQuoteAndDelimiter sample
  match r.delimiter with
  | some d => .ok ⟨d, (r.quotechar.getD '"'), r.doublequote, r.skipinitialspace⟩
  | none =>
    match guessDelimiter sample with
    | some (d, sis) => .ok ⟨d, (r.quotechar.getD '"'), r.doublequote, sis⟩
    | none => .error ()

/-! ### `csv.reader`

The `_csv.c` parsing state machine, for the dialects the module builds:
`escapechar=None`, `strict=False`, `quoting=QUOTE_MINIMAL`.  The reader
consumes the retained lines (which contain no newline characters); at the
end of each line it processes an end-of-line mark, and a record is
emitted whenever that processing lands in the `START_RECORD` state.  A
quoted field left open at the end of a line continues on the next line
with no separator inserted; a quoted field left open at the end of the
input is emitted as-is (non-strict mode). -/

/-- The reader's parsing states. -/
inductive RState
  | startRecord
  | startField
  | inField
  | inQuoted
  | quoteInQuoted
  | eatCRNL
deriving DecidableEq

/-- The in-flight parsing data: current state, current field, and the
fields saved so far for the current record. -/
structure RdInner where
  st : RState
  field : PyStr
  fields : List PyStr
deriving DecidableEq

/-- The reader's initial (and between-records) inner state. -/
def initInner : RdInner := ⟨.startRecord, [], []⟩

/-- Save the current field (`parse_save_field`). -/
def saveField (a : RdInner) : RdInner :=
  { a with field := [], fields := a.fields ++ [a.field] }

/-- The default `csv.field_size_limit()`: `parse_add_char` raises
`Error("field larger than field limit (131072)")` when asked to append to
a field that has already reached this many characters. -/
def fieldSizeLimit : Nat := 131072

/-- Process one character in the `START_FIELD` state (also the target of
the `START_RECORD` fall-through); appending to the field goes through the
`parse_add_char` field-size check. -/
def stepStartField (dl : SniffedDialect) (a : RdInner) (c : Char) :
    Except Unit RdInner :=
  if c = '\n' ∨ c = '\r' then .ok { saveField a with st := .eatCRNL }
  else if c = dl.quotechar then .ok { a with st := .inQuoted }
  else if c = ' ' ∧ dl.skipinitialspace then .ok { a with st := .startField }
  else if c = dl.delimiter then .ok { saveField a with st := .startField }
  else if a.field.length ≥ fieldSizeLimit then .error ()
  else .ok { a with field := a.field ++ [c], st := .inField }

/-- Process one character (`parse_process_char` for `c ≠ EOL`); the
possible errors are a stray character after a carriage return or line
feed ("new-line character seen in unquoted field") and an append past the
field-size limit (`parse_add_char`). -/
def stepChar (dl : SniffedDialect) (a : RdInner) (c : Char) : Except Unit RdInner :=
  match a.st with
  | .startRecord =>
    if c = '\n' ∨ c = '\r' then .ok { a with st := .eatCRNL }
    else stepStartField dl { a with st := .startField } c
  | .startField => stepStartField dl a c
  | .inField =>
    if c = '\n' ∨ c = '\r' then .ok { saveField a with st := .eatCRNL }
    else if c = dl.delimiter then .ok { saveField a with st := .startField }
    else if a.field.length ≥ fieldSizeLimit then .error ()
    else .ok { a with field := a.field ++ [c] }
  | .inQuoted =>
    if c = dl.quotechar then
      .ok { a with st := if dl.doublequote then .quoteInQuoted else .inField }
    else if a.field.length ≥ fieldSizeLimit then .error ()
    else .ok { a with field := a.field ++ [c] }
  | .quoteInQuoted =>
    if c = dl.quotechar then
      if a.field.length ≥ fieldSizeLimit then .error ()
      else .ok { a with field := a.field ++ [c], st := .inQuoted }
    else if c = dl.delimiter then .ok { saveField a with st := .startField }
    else if c = '\n' ∨ c = '\r' then .ok { saveField a with st := .eatCRNL }
    else if a.field.length ≥ fieldSizeLimit then .error ()
    else .ok { a with field := a.field ++ [c], st := .inField }
  | .eatCRNL =>
    if c = '\n' ∨ c = '\r' then .ok a
    else .error ()

/-- Process the end-of-line mark (`parse_process_char` with `EOL`): every
state completes the record except an open quoted field, which continues
onto the next line. -/
def stepEOL (a : RdInner) : RdInner :=
  match a.st with
  | .startRecord => a
  | .startField => { saveField a with st := .startRecord }
  | .inField => { saveField a with st := .startRecord }
  | .inQuoted => a
  | .quoteInQuoted => { saveField a with st := .startRecord }
  | .eatCRNL => { a with st := .startRecord }

/-- Feed a line's characters through the state machine, stopping at the
first error. -/
def stepCharsE (dl : SniffedDialect) : RdInner → PyStr → Except Unit RdInner
  | a, [] => .ok a
  | a, c :: rest =>
    match stepChar dl a c with
    | .error e => .error e
    | .ok a1 => stepCharsE dl a1 rest

/-- Feed one line (its characters, then the end-of-line mark) through the
state machine. -/
def processLineE (dl : SniffedDialect) (a : RdInner) (ln : PyStr) :
    Except Unit RdInner :=
  match stepCharsE dl a ln with
  | .error e => .error e
  | .ok a2 => .ok (stepEOL a2)

/-- Feed the lines through the machine, emitting a record after each line
that lands in `START_RECORD`. -/
def runLines (dl : SniffedDialect) :
    RdInner → List PyStr → Except Unit (List (List PyStr) × RdInner)
  | a, [] => .ok ([], a)
  | a, ln :: rest =>
    match processLineE dl a ln with
    | .error e => .error e
    | .ok a2 =>
      if a2.st = .startRecord then
        match runLines dl initInner rest with
        | .error e => .error e
        | .ok (rows, fin) => .ok (a2.fields :: rows, fin)
      else
        runLines dl a2 rest

/-- Embedding of `list(csv.reader(lines, dialect))`: run the lines, then
flush a pending open record at end of input (non-strict mode). -/
def readRowsE (dl : SniffedDialect) (lines : List PyStr) :
    Except Unit (List (List PyStr)) :=
  match runLines dl initInner lines with
  | .error e => .error e
  | .ok (rows, fin) =>
    if fin.field ≠ [] ∨ fin.st = .inQuoted then
      .ok (rows ++ [fin.fields ++ [fin.field]])
    else
      .ok rows

/-! ### `parse_text_to_rows` (`main.py`, lines 20-51) -/

/-- Embedding of `parse_text_to_rows`: strip, split into non-blank lines,
then try tab-splitting, the sniffer (errors absorbed), and the
aligned-text fallback, in that order. -/
def parse_text_to_rows (text : PyStr) : List (List PyStr) :=
  let lines := retainedLines text
  if lines = [] then []
  else
    let sample := sampleOf text
    if '\t' ∈ sample then lines.map (pySplitChar '\t')
    else
      match sniffE sample with
      | .ok dl =>
        match readRowsE dl lines with
        | .ok rows => rows
        | .error _ => alignedFallback lines
      | .error _ => alignedFallback lines

/-! ### `write_rows` (`main.py`, lines 54-64)

`csv.writer(f, delimiter=sep, quoting=csv.QUOTE_MINIMAL)` on a text
stream opened with `newline=''` and UTF-8 encoding: the default `excel`
dialect supplies `quotechar='"'`, `doublequote=True`,
`lineterminator='\r\n'`, `escapechar=None`. -/

/-- Under `QUOTE_MINIMAL` a cell is quoted iff it contains the delimiter,
the quote character, or a character of the line terminator `"\r\n"`. -/
def needsQuoteMinimal (sep : Char) (cell : PyStr) : Bool :=
  cell.any (fun c => c = sep ∨ c = '"' ∨ c = '\r' ∨ c = '\n')

/-- Render one cell: quote if needed, doubling embedded quote characters. -/
def encodeCell (sep : Char) (cell : PyStr) : PyStr :=
  if needsQuoteMinimal sep cell then
    '"' :: (cell.flatMap (fun c => if c = '"' then ['"', '"'] else [c])) ++ ['"']
  else cell

/-- Render one record without its terminator; a record consisting of a
single empty field is written as `""` so that it is distinguishable from
an empty line (`_csv.c`, `csv_writerow`). -/
def renderRow (sep : Char) (row : List PyStr) : PyStr :=
  if row = [[]] then ['"', '"']
  else List.intercalate [sep] (row.map (encodeCell sep))

/-- Embedding of `write_rows` (the text written to the output file): each
record rendered and terminated by `"\r\n"`. -/
def write_rows (rows : List (List PyStr)) (sep : Char) : PyStr :=
  rows.flatMap (fun r => renderRow sep r ++ ['\r', '\n'])

/-- The byte stream `write_rows` produces: the rendered text, UTF-8
encoded. -/
def write_rows_bytes (rows : List (List PyStr)) (sep : Char) : ByteArray :=
  (String.mk (write_rows rows sep)).toUTF8

instance : DecidableEq (Except Unit SniffedDialect) := fun a b =>
  match a, b with
  | .ok x, .ok y =>
    match decEq x y with
    | isTrue h => isTrue (h ▸ rfl)
    | isFalse h => isFalse (fun he => h (Except.ok.inj he))
  | .error x, .error y => isTrue (by cases x; cases y; rfl)
  | .ok _, .error _ => isFalse (fun he => Except.noConfusion he)
  | .error _, .ok _ => isFalse (fun he => Except.noConfusion he)

/-- The effect of `skipinitialspace` on one field: leading space
characters are skipped at the start of a field. -/
def sisDrop (dl : SniffedDialect) (cell : PyStr) : PyStr :=
  if dl.skipinitialspace then cell.dropWhile (fun c => c = ' ') else cell

/-- All characters of the reader's in-flight state satisfy `S`. -/
def innerChOK (S : Char → Prop) (a : RdInner) : Prop :=
  (∀ c ∈ a.field, S c) ∧ ∀ f ∈ a.fields, ∀ c ∈ f, S c

/-- All characters of all cells of all rows satisfy `S`. -/
def rowsChOK (S : Char → Prop) (rows : List (List PyStr)) : Prop :=
  ∀ r ∈ rows, ∀ cell ∈ r, ∀ c ∈ cell, S c

/-- One when the reader state holds an unfinished record that the
end-of-input flush would emit, zero otherwise. -/
def pendCount (a : RdInner) : Nat :=
  if a.st = .inQuoted ∨ a.field ≠ [] then 1 else 0

/-! ### Definitions taken from the specification's words

These are *not* translations of the source; they state what the
specification (or a claim) says, to be compared against the embedded
code. -/

/-- Helper for `specSpaceOnlySplit`: cut at runs of two or more space
characters (U+0020 only), as claim C3 words strategy 3. -/
def spaceRunSplitAux : PyStr → PyStr → Bool → List PyStr
  | [], acc, _ => [acc.reverse]
  | c :: rest, acc, skipping =>
    if skipping then
      if c = ' ' then spaceRunSplitAux rest acc true
      else spaceRunSplitAux rest [c] false
    else if c = ' ' && (match rest with | d :: _ => decide (d = ' ') | [] => false) then
      acc.reverse :: spaceRunSplitAux rest [] true
    else
      spaceRunSplitAux rest (c :: acc) false

/-- Claim C3's reading of strategy 3: split on runs of two or more
*space* characters only, no other whitespace splitting. -/
def specSpaceOnlySplit (s : PyStr) : List PyStr := spaceRunSplitAux s [] false

/-- The aligned fallback as claim C3 words it: per line, strip, split on
2+-space runs, trim the cells. -/
def specSpaceFallback (lines : List PyStr) : List (List PyStr) :=
  lines.map (fun ln => (specSpaceOnlySplit (pyStrip ln)).map pyStrip)

/-- Claim C7's quoting rule, stated independently of the code: a cell is
quoted exactly when the delimiter, a quote character, or a line-break
character occurs in it. -/
def specCellQuoted (sep : Char) (cell : PyStr) : Prop :=
  sep ∈ cell ∨ '"' ∈ cell ∨ '\r' ∈ cell ∨ '\n' ∈ cell

instance (sep : Char) (cell : PyStr) : Decidable (specCellQuoted sep cell) := by
  unfold specCellQuoted; infer_instance

/-- A cell rendered according to claim C7: quoted only under
`specCellQuoted`, with embedded quote characters doubled. -/
def specRenderCell (sep : Char) (cell : PyStr) : PyStr :=
  if specCellQuoted sep cell then
    '"' :: (cell.flatMap (fun c => if c = '"' then ['"', '"'] else [c])) ++ ['"']
  else cell

/-- The serializer exactly as claim C7 states it: cells joined by the
delimiter with minimal quoting, each row followed by the newline
sequence `"\r\n"`, and no other quoting. -/
def specSerializeClaim (rows : List (List PyStr)) (sep : Char) : PyStr :=
  rows.flatMap (fun r => List.intercalate [sep] (r.map (specRenderCell sep)) ++ ['\r', '\n'])

/-- The amended serializer: as claim C7, plus the one exception the code
forces — a row consisting of one empty cell is rendered quoted (`""`) so
it remains distinguishable from an empty line. -/
def specSerializeAmended (rows : List (List PyStr)) (sep : Char) : PyStr :=
  rows.flatMap (fun r =>
    (if r = [[]] then ['"', '"']
     else List.intercalate [sep] (r.map (specRenderCell sep))) ++ ['\r', '\n'])

/-- No two adjacent whitespace characters (so strategy 3 has nothing to
split on). -/
def noAdjacentWs : PyStr → Bool
  | [] => true
  | [_] => true
  | c :: d :: rest => !(pyIsSpace c && pyIsSpace d) && noAdjacentWs (d :: rest)

/-! ## Theorems -/

/-! ### Basic facts about the string primitives -/

theorem pySplitCharAux_ne_nil (sep : Char) (s acc : PyStr) :
    pySplitCharAux sep s acc ≠ [] := by
  induction s generalizing acc with
  | nil => simp [pySplitCharAux]
  | cons c rest ih =>
    unfold pySplitCharAux
    by_cases h : c = sep <;> simp [h, ih]

theorem intercalate_cons_of_ne_nil {α : Type} (sep x : List α) (l : List (List α))
    (h : l ≠ []) :
    List.intercalate sep (x :: l) = x ++ sep ++ List.intercalate sep l := by
  cases l with
  | nil => exact absurd rfl h
  | cons y t => simp [List.intercalate, List.intersperse]

theorem pySplitCharAux_intercalate (sep : Char) (s acc : PyStr) :
    List.intercalate [sep] (pySplitCharAux sep s acc) = acc.reverse ++ s := by
  induction s generalizing acc with
  | nil => simp [pySplitCharAux, List.intercalate]
  | cons c rest ih =>
    unfold pySplitCharAux
    by_cases h : c = sep
    · rw [if_pos h,
        intercalate_cons_of_ne_nil [sep] acc.reverse _ (pySplitCharAux_ne_nil _ _ _), ih]
      simp [h]
    · rw [if_neg h, ih]
      simp

theorem intercalate_pySplitChar (sep : Char) (s : PyStr) :
    List.intercalate [sep] (pySplitChar sep s) = s := by
  simpa using pySplitCharAux_intercalate sep s []

theorem pySplitCharAux_length (sep : Char) (s acc : PyStr) :
    (pySplitCharAux sep s acc).length = countCh sep s + 1 := by
  induction s generalizing acc with
  | nil => simp [pySplitCharAux, countCh]
  | cons c rest ih =>
    unfold pySplitCharAux countCh
    by_cases h : c = sep <;> simp [h, ih]
    omega

theorem pySplitChar_length (sep : Char) (s : PyStr) :
    (pySplitChar sep s).length = countCh sep s + 1 :=
  pySplitCharAux_length sep s []

theorem pySplitCharAux_of_not_mem (sep : Char) (s acc : PyStr) (h : sep ∉ s) :
    pySplitCharAux sep s acc = [acc.reverse ++ s] := by
  induction s generalizing acc with
  | nil => simp [pySplitCharAux]
  | cons c rest ih =>
    unfold pySplitCharAux
    rw [if_neg (by intro hc; exact h (hc ▸ List.mem_cons_self c rest))]
    rw [ih _ (fun hm => h (List.mem_cons_of_mem _ hm))]
    simp

theorem pySplitChar_of_not_mem (sep : Char) (s : PyStr) (h : sep ∉ s) :
    pySplitChar sep s = [s] := by
  simpa using pySplitCharAux_of_not_mem sep s [] h

theorem pyStrip_nil_of_all_space (s : PyStr) (h : ∀ c ∈ s, pyIsSpace c) :
    pyStrip s = [] := by
  unfold pyStrip
  have h1 : s.dropWhile pyIsSpace = [] :=
    List.dropWhile_eq_nil_iff.mpr (fun x hx => h x hx)
  rw [h1]
  simp

/-! ### Which branch of the cascade runs -/

theorem parse_tab_eq (text : PyStr) (h : '\t' ∈ sampleOf text) :
    parse_text_to_rows text = (retainedLines text).map (pySplitChar '\t') := by
  by_cases hl : retainedLines text = []
  · simp [parse_text_to_rows, hl]
  · simp only [parse_text_to_rows]
    rw [if_neg hl, if_pos h]

theorem parse_sniff_error_eq (text : PyStr) (ht : '\t' ∉ sampleOf text)
    (hs : sniffE (sampleOf text) = .error ()) :
    parse_text_to_rows text = alignedFallback (retainedLines text) := by
  by_cases hl : retainedLines text = []
  · simp [parse_text_to_rows, hl, alignedFallback]
  · simp only [parse_text_to_rows]
    rw [if_neg hl, if_neg ht, hs]

theorem parse_read_error_eq (text : PyStr) (ht : '\t' ∉ sampleOf text)
    (dl : SniffedDialect) (hs : sniffE (sampleOf text) = .ok dl)
    (hr : readRowsE dl (retainedLines text) = .error ()) :
    parse_text_to_rows text = alignedFallback (retainedLines text) := by
  by_cases hl : retainedLines text = []
  · simp [parse_text_to_rows, hl, alignedFallback]
  · simp only [parse_text_to_rows]
    rw [if_neg hl, if_neg ht, hs]
    dsimp only
    rw [hr]

theorem parse_sniffed_eq (text : PyStr) (ht : '\t' ∉ sampleOf text)
    (dl : SniffedDialect) (hs : sniffE (sampleOf text) = .ok dl)
    (rows : List (List PyStr)) (hr : readRowsE dl (retainedLines text) = .ok rows)
    (hl : retainedLines text ≠ []) :
    parse_text_to_rows text = rows := by
  simp only [parse_text_to_rows]
  rw [if_neg hl, if_neg ht, hs]
  dsimp only
  rw [hr]

/-! ### Serializer lemmas -/

theorem specCellQuoted_iff (sep : Char) (cell : PyStr) :
    needsQuoteMinimal sep cell = true ↔ specCellQuoted sep cell := by
  unfold needsQuoteMinimal specCellQuoted
  simp only [List.any_eq_true, decide_eq_true_eq]
  constructor
  · rintro ⟨c, hc, h1 | h2 | h3 | h4⟩
    · exact Or.inl (h1 ▸ hc)
    · exact Or.inr (Or.inl (h2 ▸ hc))
    · exact Or.inr (Or.inr (Or.inl (h3 ▸ hc)))
    · exact Or.inr (Or.inr (Or.inr (h4 ▸ hc)))
  · rintro (h | h | h | h)
    · exact ⟨sep, h, Or.inl rfl⟩
    · exact ⟨'"', h, Or.inr (Or.inl rfl)⟩
    · exact ⟨'\r', h, Or.inr (Or.inr (Or.inl rfl))⟩
    · exact ⟨'\n', h, Or.inr (Or.inr (Or.inr rfl))⟩

theorem encodeCell_eq_spec (sep : Char) (cell : PyStr) :
    encodeCell sep cell = specRenderCell sep cell := by
  unfold encodeCell specRenderCell
  by_cases h : specCellQuoted sep cell
  · rw [if_pos ((specCellQuoted_iff sep cell).mpr h), if_pos h]
  · rw [if_neg (fun hb => h ((specCellQuoted_iff _ _).mp hb)), if_neg h]

theorem write_rows_eq_amended (rows : List (List PyStr)) (sep : Char) :
    write_rows rows sep = specSerializeAmended rows sep := by
  have hf : encodeCell sep = specRenderCell sep := funext (encodeCell_eq_spec sep)
  unfold write_rows specSerializeAmended renderRow
  rw [hf]

/-! ### Claim C1 (tab strategy) -/

/-- C1: for every input whose sample (first 20 retained non-blank lines
joined by newlines) contains a horizontal tab, `parse_text_to_rows`
returns exactly the retained lines split on tab characters, with no
trimming — regardless of any other delimiters in the text. -/
theorem C1_tab_strategy (text : PyStr) (h : '\t' ∈ sampleOf text) :
    parse_text_to_rows text = (retainedLines text).map (pySplitChar '\t') :=
  parse_tab_eq text h

theorem C1_tab_strategy_witness :
    ('\t' ∈ sampleOf ("x\ty,z\n1\t2;3" : String).toList) ∧
    parse_text_to_rows ("x\ty,z\n1\t2;3" : String).toList =
      (retainedLines ("x\ty,z\n1\t2;3" : String).toList).map (pySplitChar '\t') :=
  ⟨by decide, C1_tab_strategy _ (by decide)⟩

/-! ### Claim C10 (tab path per-line round trip) -/

/-- C10: when the tab strategy fires, joining each returned row's cells
with a single tab reproduces the corresponding retained line exactly; in
particular a retained line with no tab yields the one-cell row holding
that line. -/
theorem C10_tab_lossless (text : PyStr) (h : '\t' ∈ sampleOf text) :
    parse_text_to_rows text = (retainedLines text).map (pySplitChar '\t') ∧
    ∀ ln ∈ retainedLines text,
      List.intercalate ['\t'] (pySplitChar '\t' ln) = ln ∧
      ('\t' ∉ ln → pySplitChar '\t' ln = [ln]) :=
  ⟨parse_tab_eq text h, fun ln _ =>
    ⟨intercalate_pySplitChar '\t' ln, fun hn => pySplitChar_of_not_mem '\t' ln hn⟩⟩

theorem C10_tab_lossless_witness :
    List.intercalate ['\t'] (pySplitChar '\t' ("a\tb" : String).toList) =
      ("a\tb" : String).toList ∧
    pySplitChar '\t' ("c,d" : String).toList = [("c,d" : String).toList] := by
  have h := C10_tab_lossless ("a\tb\nc,d" : String).toList (by decide)
  have h1 := h.2 ("a\tb" : String).toList (by decide)
  have h2 := h.2 ("c,d" : String).toList (by decide)
  exact ⟨h1.1, h2.2 (by decide)⟩

/-! ### Claim C8 (empty input, empty serialization) -/

/-- C8: an input that is empty or all whitespace parses to the empty
table, and serializing no rows produces empty output. -/
theorem C8_empty_cases (text : PyStr) (sep : Char) (h : ∀ c ∈ text, pyIsSpace c) :
    parse_text_to_rows text = [] ∧ write_rows [] sep = [] := by
  constructor
  · have hl : retainedLines text = [] := by
      unfold retainedLines
      rw [pyStrip_nil_of_all_space text h]
      rfl
    simp [parse_text_to_rows, hl]
  · rfl

theorem C8_empty_cases_witness :
    parse_text_to_rows (" \t \n\x0c \n " : String).toList = [] ∧
    write_rows [] ',' = [] :=
  C8_empty_cases _ ',' (by decide)

/-! ### Claim C7 (serializer, corrected) -/

/-- C7 counterexample: the record consisting of one empty cell contains
no delimiter, quote or line-break character, yet the serializer quotes
it (`""`), so minimal quoting as claimed does not hold. -/
theorem C7_minimal_quoting_counterexample :
    write_rows [[[]]] ',' ≠ specSerializeClaim [[[]]] ',' := by decide

/-- C7 (amended): the serializer joins each row's cells with the
delimiter, quotes a cell exactly when it contains the delimiter, a quote
character or a line-break character — or when it is the sole, empty cell
of its record — doubles embedded quotes, terminates each record with the
newline sequence, and emits the UTF-8 encoding of that text. -/
theorem C7_serializer_spec (rows : List (List PyStr)) (sep : Char) :
    write_rows rows sep = specSerializeAmended rows sep ∧
    write_rows_bytes rows sep = (String.mk (specSerializeAmended rows sep)).toUTF8 := by
  refine ⟨write_rows_eq_amended rows sep, ?_⟩
  unfold write_rows_bytes
  rw [write_rows_eq_amended]

/-! ### Counterexamples for the corrected claims C2, C3, C5, C6 -/

/-- C2 counterexample: on `"a,b\nc",d\ne,f` the sniffed dialect's quoted
field spans the first two retained lines, so the reader merges them into
one record: three non-blank lines yield only two rows, refuting the
row-count invariant as stated. -/
theorem C2_row_count_counterexample :
    retainedLines ("\"a,b\nc\",d\ne,f" : String).toList ≠ [] ∧
    (parse_text_to_rows ("\"a,b\nc\",d\ne,f" : String).toList).length ≠
      (retainedLines ("\"a,b\nc\",d\ne,f" : String).toList).length := by
  decide

/-- C3 counterexample: on `a\xa0\xa0b` (two adjacent no-break spaces) no
tab is present and the sniffer fails, yet the fallback splits the line —
`re.split(r"\s{2,}", …)` splits on any whitespace run, not only on runs
of space characters as the claim states. -/
theorem C3_space_only_counterexample :
    ('\t' ∉ sampleOf ("a\xa0\xa0b" : String).toList) ∧
    sniffE (sampleOf ("a\xa0\xa0b" : String).toList) = .error () ∧
    parse_text_to_rows ("a\xa0\xa0b" : String).toList ≠
      specSpaceFallback (retainedLines ("a\xa0\xa0b" : String).toList) := by
  decide

/-- C6 counterexample: the table `[[a, ␣b], [c, ␣d]]` has cells free of
delimiter and quote characters, its serialization contains no tab, and
the sniffer fires with delimiter `,` — but it also infers
`skipinitialspace`, so re-parsing drops the cells' leading spaces and
the original values are not reproduced. -/
theorem C6_roundtrip_counterexample :
    (∀ r ∈ [[['a'], [' ', 'b']], [['c'], [' ', 'd']]], ∀ cell ∈ r, ∀ c ∈ cell,
      c ≠ ',' ∧ c ≠ '"' ∧ c ≠ '\'') ∧
    ('\t' ∉ write_rows [[['a'], [' ', 'b']], [['c'], [' ', 'd']]] ',') ∧
    (∃ dl, sniffE (sampleOf (write_rows [[['a'], [' ', 'b']], [['c'], [' ', 'd']]] ','))
        = .ok dl ∧ dl.delimiter = ',') ∧
    parse_text_to_rows (write_rows [[['a'], [' ', 'b']], [['c'], [' ', 'd']]] ',') ≠
      [[['a'], [' ', 'b']], [['c'], [' ', 'd']]] := by
  refine ⟨by decide, by decide, ⟨⟨',', '"', false, true⟩, by decide, rfl⟩, by decide⟩

/-! ### Aligned-fallback lemmas (strategy 3) -/

theorem noAdjacentWs_tail (c : Char) (rest : PyStr)
    (h : noAdjacentWs (c :: rest)) : noAdjacentWs rest := by
  cases rest with
  | nil => rfl
  | cons d r =>
    unfold noAdjacentWs at h
    exact ((Bool.and_eq_true _ _) ▸ h).2

theorem reSplitWs2Aux_ne_nil (s : PyStr) :
    ∀ (acc : PyStr) (skipping : Bool), reSplitWs2Aux s acc skipping ≠ [] := by
  induction s with
  | nil => intro acc skipping; simp [reSplitWs2Aux]
  | cons c rest ih =>
    intro acc skipping
    unfold reSplitWs2Aux
    cases skipping <;> split_ifs <;> simp [ih]

theorem reSplitWs2Aux_of_noAdjacentWs (s : PyStr) (h : noAdjacentWs s) :
    ∀ acc : PyStr, reSplitWs2Aux s acc false = [acc.reverse ++ s] := by
  induction s with
  | nil => intro acc; simp [reSplitWs2Aux]
  | cons c rest ih =>
    intro acc
    unfold reSplitWs2Aux
    have hcut : (pyIsSpace c && headIsWs rest) = false := by
      cases rest with
      | nil => simp [headIsWs]
      | cons d r =>
        unfold noAdjacentWs at h
        have h1 := ((Bool.and_eq_true _ _) ▸ h).1
        simp only [headIsWs]
        cases hc : pyIsSpace c with
        | false => simp
        | true =>
          rw [hc] at h1
          simp only [Bool.true_and] at h1
          simp only [Bool.true_and]
          cases hd : pyIsSpace d with
          | false => rfl
          | true => rw [hd] at h1; simp at h1
    rw [if_neg (by simp), if_neg (by simp [hcut]),
      ih (noAdjacentWs_tail c rest h) (c :: acc)]
    simp

theorem reSplitWs2_of_noAdjacentWs (s : PyStr) (h : noAdjacentWs s) :
    reSplitWs2 s = [s] := by
  simpa using reSplitWs2Aux_of_noAdjacentWs s h []

/-! ### `pyStrip` is idempotent -/

theorem dropWhile_head_spec (p : Char → Bool) (l : PyStr) :
    l.dropWhile p = [] ∨
    ∃ h t, l.dropWhile p = h :: t ∧ p h = false := by
  induction l with
  | nil => exact Or.inl rfl
  | cons c rest ih =>
    rw [List.dropWhile_cons]
    by_cases hc : p c = true
    · simpa [hc] using ih
    · exact Or.inr ⟨c, rest, by simp [hc], by simpa using hc⟩

theorem dropWhile_eq_self_of_head (p : Char → Bool) (l : PyStr)
    (h : l = [] ∨ ∃ c t, l = c :: t ∧ p c = false) :
    l.dropWhile p = l := by
  rcases h with h | ⟨c, t, rfl, hc⟩
  · simp [h]
  · simp [List.dropWhile_cons, hc]

theorem dropWhile_as_drop (p : Char → Bool) (l : PyStr) :
    l.dropWhile p = l.drop (l.takeWhile p).length := by
  calc l.dropWhile p
      = (l.takeWhile p ++ l.dropWhile p).drop (l.takeWhile p).length := by
        rw [List.drop_left]
    _ = l.drop (l.takeWhile p).length := by
        rw [List.takeWhile_append_dropWhile]

theorem head_spec_of_take (p : Char → Bool) (l : PyStr) (n : Nat)
    (h : l = [] ∨ ∃ c t, l = c :: t ∧ p c = false) :
    l.take n = [] ∨ ∃ c t, l.take n = c :: t ∧ p c = false := by
  rcases h with h | ⟨c, t, rfl, hc⟩
  · subst h; simp
  · cases n with
    | zero => exact Or.inl rfl
    | succ m => exact Or.inr ⟨c, t.take m, by simp, hc⟩

theorem reverse_dropWhile_reverse_as_take (p : Char → Bool) (l : PyStr) :
    ∃ n, (l.reverse.dropWhile p).reverse = l.take n := by
  refine ⟨l.reverse.length - (l.reverse.takeWhile p).length, ?_⟩
  rw [dropWhile_as_drop, List.reverse_drop, List.reverse_reverse]

theorem pyStrip_idem (s : PyStr) : pyStrip (pyStrip s) = pyStrip s := by
  unfold pyStrip
  set T := s.dropWhile pyIsSpace with hT
  have hTfirst : T = [] ∨ ∃ c t, T = c :: t ∧ pyIsSpace c = false :=
    dropWhile_head_spec pyIsSpace s
  obtain ⟨n, hn⟩ := reverse_dropWhile_reverse_as_take pyIsSpace T
  rw [hn]
  have h1 : (T.take n).dropWhile pyIsSpace = T.take n :=
    dropWhile_eq_self_of_head _ _ (head_spec_of_take _ _ _ hTfirst)
  rw [h1]
  have h2 : (T.take n).reverse.dropWhile pyIsSpace = (T.take n).reverse := by
    apply dropWhile_eq_self_of_head
    have heq : (T.take n).reverse = T.reverse.dropWhile pyIsSpace := by
      rw [← hn, List.reverse_reverse]
    rw [heq]
    exact dropWhile_head_spec pyIsSpace T.reverse
  rw [h2, List.reverse_reverse]

/-! ### Claim C3 (aligned fallback, amended) -/

/-- C3 (amended): with no tab in the sample and a failed sniff, the
result is the aligned fallback: each retained line is split on runs of
two or more *whitespace* characters (the code splits on `\s{2,}`, not
only on spaces); every line yields at least one cell; a line without two
adjacent whitespace characters is returned whole (a single space never
splits); and every cell is trimmed. -/
theorem C3_aligned_fallback (text : PyStr) (ht : '\t' ∉ sampleOf text)
    (hs : sniffE (sampleOf text) = .error ()) :
    parse_text_to_rows text = alignedFallback (retainedLines text) ∧
    (∀ row ∈ parse_text_to_rows text, row ≠ []) ∧
    (∀ ln ∈ retainedLines text, noAdjacentWs (pyStrip ln) →
      (reSplitWs2 (pyStrip ln)).map pyStrip = [pyStrip ln]) ∧
    (∀ row ∈ parse_text_to_rows text, ∀ cell ∈ row, pyStrip cell = cell) := by
  have hp := parse_sniff_error_eq text ht hs
  refine ⟨hp, ?_, ?_, ?_⟩
  · intro row hrow
    rw [hp] at hrow
    unfold alignedFallback at hrow
    obtain ⟨ln, _, rfl⟩ := List.mem_map.mp hrow
    intro hemp
    exact reSplitWs2Aux_ne_nil (pyStrip ln) [] false (List.map_eq_nil_iff.mp hemp)
  · intro ln _ hna
    rw [reSplitWs2_of_noAdjacentWs _ hna]
    simp [pyStrip_idem]
  · intro row hrow cell hcell
    rw [hp] at hrow
    unfold alignedFallback at hrow
    obtain ⟨ln, _, rfl⟩ := List.mem_map.mp hrow
    obtain ⟨piece, _, rfl⟩ := List.mem_map.mp hcell
    exact pyStrip_idem piece

theorem C3_aligned_fallback_witness :
    parse_text_to_rows ("ab  cd ef" : String).toList =
      alignedFallback (retainedLines ("ab  cd ef" : String).toList) ∧
    (reSplitWs2 (pyStrip ("xy z" : String).toList)).map pyStrip =
      [pyStrip ("xy z" : String).toList] := by
  have h := C3_aligned_fallback ("ab  cd ef" : String).toList (by decide) (by decide)
  have h2 := C3_aligned_fallback ("xy z" : String).toList (by decide) (by decide)
  exact ⟨h.1, h2.2.2.1 ("xy z" : String).toList (by decide) (by decide)⟩

/-! ### Claim C4 (error absorption) -/

/-- C4: `parse_text_to_rows` never propagates a failure: whether the
sniffer finds no delimiter or the reader errors, the function falls
through to the aligned fallback, which always succeeds and yields at
least one cell for every retained line. -/
theorem C4_errors_absorbed (text : PyStr) (ht : '\t' ∉ sampleOf text)
    (h : sniffE (sampleOf text) = .error () ∨
      ∃ dl, sniffE (sampleOf text) = .ok dl ∧
        readRowsE dl (retainedLines text) = .error ()) :
    parse_text_to_rows text = alignedFallback (retainedLines text) ∧
    (parse_text_to_rows text).length = (retainedLines text).length ∧
    ∀ row ∈ parse_text_to_rows text, row ≠ [] := by
  have hp : parse_text_to_rows text = alignedFallback (retainedLines text) := by
    rcases h with hs | ⟨dl, hs, hr⟩
    · exact parse_sniff_error_eq text ht hs
    · exact parse_read_error_eq text ht dl hs hr
  refine ⟨hp, ?_, ?_⟩
  · rw [hp]; unfold alignedFallback; simp
  · intro row hrow
    rw [hp] at hrow
    unfold alignedFallback at hrow
    obtain ⟨ln, _, rfl⟩ := List.mem_map.mp hrow
    intro hemp
    exact reSplitWs2Aux_ne_nil (pyStrip ln) [] false (List.map_eq_nil_iff.mp hemp)

theorem C4_errors_absorbed_witness :
    parse_text_to_rows ("hello world" : String).toList =
      alignedFallback (retainedLines ("hello world" : String).toList) ∧
    parse_text_to_rows ("hello world" : String).toList = [[("hello world" : String).toList]] := by
  have h := C4_errors_absorbed ("hello world" : String).toList (by decide)
    (Or.inl (by decide))
  exact ⟨h.1, by decide⟩

/-! ### Character provenance: no strategy manufactures line breaks -/

theorem pySplitlinesAux_no_boundary (s acc : PyStr)
    (hacc : ∀ c ∈ acc, isLineBoundary c = false) :
    ∀ l ∈ pySplitlinesAux s acc, ∀ c ∈ l, isLineBoundary c = false := by
  induction s, acc using pySplitlinesAux.induct with
  | case1 =>
    intro l hl
    simp [pySplitlinesAux] at hl
  | case2 acc hne =>
    intro l hl c hc
    rw [pySplitlinesAux.eq_1, if_neg hne] at hl
    simp only [List.mem_singleton] at hl
    subst hl
    exact hacc c (List.mem_reverse.mp hc)
  | case3 rest acc ih =>
    intro l hl c hc
    rw [pySplitlinesAux.eq_2] at hl
    rcases List.mem_cons.mp hl with rfl | hl2
    · exact hacc c (List.mem_reverse.mp hc)
    · exact ih (by simp) l hl2 c hc
  | case4 c0 rest acc hne hb ih =>
    intro l hl c hc
    rw [pySplitlinesAux.eq_3 acc c0 rest hne, if_pos hb] at hl
    rcases List.mem_cons.mp hl with rfl | hl2
    · exact hacc c (List.mem_reverse.mp hc)
    · exact ih (by simp) l hl2 c hc
  | case5 c0 rest acc hne hb ih =>
    intro l hl c hc
    rw [pySplitlinesAux.eq_3 acc c0 rest hne, if_neg hb] at hl
    refine ih ?_ l hl c hc
    intro d hd
    rcases List.mem_cons.mp hd with rfl | hd2
    · exact Bool.eq_false_iff.mpr (fun ht => hb ht)
    · exact hacc d hd2

theorem retainedLines_no_boundary (text : PyStr) :
    ∀ ln ∈ retainedLines text, ∀ c ∈ ln, isLineBoundary c = false := by
  intro ln hln
  unfold retainedLines at hln
  have hmem := (List.mem_filter.mp hln).1
  exact pySplitlinesAux_no_boundary (pyStrip text) [] (by simp) ln hmem

theorem pySplitCharAux_chars (sep : Char) (s : PyStr) :
    ∀ acc : PyStr, ∀ l ∈ pySplitCharAux sep s acc, ∀ c ∈ l, c ∈ s ∨ c ∈ acc := by
  induction s with
  | nil =>
    intro acc l hl c hc
    simp [pySplitCharAux] at hl
    subst hl
    exact Or.inr (List.mem_reverse.mp hc)
  | cons c0 rest ih =>
    intro acc l hl c hc
    unfold pySplitCharAux at hl
    by_cases h0 : c0 = sep
    · rw [if_pos h0] at hl
      rcases List.mem_cons.mp hl with rfl | hl2
      · exact Or.inr (List.mem_reverse.mp hc)
      · rcases ih [] l hl2 c hc with h | h
        · exact Or.inl (List.mem_cons_of_mem _ h)
        · simp at h
    · rw [if_neg h0] at hl
      rcases ih (c0 :: acc) l hl c hc with h | h
      · exact Or.inl (List.mem_cons_of_mem _ h)
      · rcases List.mem_cons.mp h with rfl | h2
        · exact Or.inl (List.mem_cons_self _ _)
        · exact Or.inr h2

theorem pyStrip_subset (s : PyStr) : ∀ c ∈ pyStrip s, c ∈ s := by
  intro c hc
  unfold pyStrip at hc
  rw [List.mem_reverse] at hc
  have h1 := (List.dropWhile_sublist (l := (s.dropWhile pyIsSpace).reverse)
    (p := pyIsSpace)).subset hc
  rw [List.mem_reverse] at h1
  exact (List.dropWhile_sublist (l := s) (p := pyIsSpace)).subset h1

theorem reSplitWs2Aux_chars (s : PyStr) :
    ∀ (acc : PyStr) (skipping : Bool), ∀ l ∈ reSplitWs2Aux s acc skipping,
      ∀ c ∈ l, c ∈ s ∨ c ∈ acc := by
  induction s with
  | nil =>
    intro acc skipping l hl c hc
    simp [reSplitWs2Aux] at hl
    subst hl
    exact Or.inr (List.mem_reverse.mp hc)
  | cons c0 rest ih =>
    intro acc skipping l hl c hc
    unfold reSplitWs2Aux at hl
    have hforward : ∀ acc2 sk2, (∀ d ∈ acc2, d ∈ c0 :: rest ∨ d ∈ acc) →
        l ∈ reSplitWs2Aux rest acc2 sk2 → c ∈ c0 :: rest ∨ c ∈ acc := by
      intro acc2 sk2 hacc2 hl2
      rcases ih acc2 sk2 l hl2 c hc with h | h
      · exact Or.inl (List.mem_cons_of_mem _ h)
      · exact hacc2 c h
    rcases hsk : skipping with _ | _
    · rw [hsk] at hl
      rw [if_neg (by simp)] at hl
      by_cases hcut : (pyIsSpace c0 && headIsWs rest) = true
      · rw [if_pos (by simp [hcut])] at hl
        rcases List.mem_cons.mp hl with rfl | hl2
        · exact Or.inr (List.mem_reverse.mp hc)
        · exact hforward [] true (by simp) hl2
      · rw [if_neg (by simp [hcut])] at hl
        refine hforward (c0 :: acc) false ?_ hl
        intro d hd
        rcases List.mem_cons.mp hd with rfl | hd2
        · exact Or.inl (List.mem_cons_self _ _)
        · exact Or.inr hd2
    · rw [hsk] at hl
      rw [if_pos (by simp)] at hl
      by_cases hsp : pyIsSpace c0 = true
      · rw [if_pos hsp] at hl
        exact hforward acc true (fun d hd => Or.inr hd) hl
      · rw [if_neg hsp] at hl
        refine hforward [c0] false ?_ hl
        intro d hd
        rcases List.mem_cons.mp hd with rfl | hd2
        · exact Or.inl (List.mem_cons_self _ _)
        · simp at hd2

/-! ### Character provenance through the reader -/

theorem innerChOK_saveField (S : Char → Prop) (a : RdInner)
    (h : innerChOK S a) : innerChOK S (saveField a) := by
  obtain ⟨h1, h2⟩ := h
  refine ⟨by simp [saveField], ?_⟩
  intro f hf c hc
  simp only [saveField, List.mem_append, List.mem_singleton] at hf
  rcases hf with hf | rfl
  · exact h2 f hf c hc
  · exact h1 c hc

set_option linter.unreachableTactic false in
set_option linter.unusedTactic false in
theorem stepChar_chars (S : Char → Prop) (dl : SniffedDialect) (a a2 : RdInner)
    (c : Char) (ha : innerChOK S a) (hc : S c)
    (h : stepChar dl a c = .ok a2) : innerChOK S a2 := by
  obtain ⟨h1, h2⟩ := ha
  have hadd : innerChOK S { a with field := a.field ++ [c] } := by
    refine ⟨?_, h2⟩
    intro d hd
    rcases List.mem_append.mp hd with hd2 | hd2
    · exact h1 d hd2
    · simp at hd2; subst hd2; exact hc
  unfold stepChar at h
  cases hst : a.st <;> rw [hst] at h <;> unfold stepStartField at h <;>
    split_ifs at h <;>
    first
      | (cases h; exact ⟨h1, h2⟩)
      | (cases h; exact innerChOK_saveField S a ⟨h1, h2⟩)
      | (cases h; exact hadd)
      | (cases h
         exact innerChOK_saveField S { a with st := RState.startField } ⟨h1, h2⟩)
      | (cases h
         refine ⟨?_, h2⟩
         intro d hd
         rcases List.mem_append.mp hd with hd2 | hd2
         · exact h1 d hd2
         · simp at hd2; subst hd2; exact hc)
      | exact Except.noConfusion h

set_option linter.unreachableTactic false in
set_option linter.unusedTactic false in
theorem stepEOL_chars (S : Char → Prop) (a : RdInner)
    (ha : innerChOK S a) : innerChOK S (stepEOL a) := by
  unfold stepEOL
  cases a.st <;>
    first
      | exact ha
      | exact innerChOK_saveField S a ha
      | exact ⟨ha.1, ha.2⟩

theorem stepCharsE_chars (S : Char → Prop) (dl : SniffedDialect) (ln : PyStr) :
    ∀ a a2 : RdInner, innerChOK S a → (∀ c ∈ ln, S c) →
      stepCharsE dl a ln = .ok a2 → innerChOK S a2 := by
  induction ln with
  | nil =>
    intro a a2 ha _ h
    unfold stepCharsE at h
    cases h
    exact ha
  | cons c rest ih =>
    intro a a2 ha hln h
    unfold stepCharsE at h
    cases hstep : stepChar dl a c with
    | error e => rw [hstep] at h; exact Except.noConfusion h
    | ok a1 =>
      rw [hstep] at h
      have ha1 := stepChar_chars S dl a a1 c ha (hln c (List.mem_cons_self _ _)) hstep
      exact ih a1 a2 ha1 (fun d hd => hln d (List.mem_cons_of_mem _ hd)) h

theorem processLineE_chars (S : Char → Prop) (dl : SniffedDialect) (ln : PyStr)
    (a a2 : RdInner) (ha : innerChOK S a) (hln : ∀ c ∈ ln, S c)
    (h : processLineE dl a ln = .ok a2) : innerChOK S a2 := by
  unfold processLineE at h
  cases hsteps : stepCharsE dl a ln with
  | error e => rw [hsteps] at h; exact Except.noConfusion h
  | ok a1 =>
    rw [hsteps] at h
    cases h
    exact stepEOL_chars S a1 (stepCharsE_chars S dl ln a a1 ha hln hsteps)

theorem initInner_chars (S : Char → Prop) : innerChOK S initInner := by
  constructor <;> simp [initInner]

theorem runLines_chars (S : Char → Prop) (dl : SniffedDialect) (lines : List PyStr) :
    ∀ (a : RdInner) (rows : List (List PyStr)) (fin : RdInner),
      innerChOK S a → (∀ ln ∈ lines, ∀ c ∈ ln, S c) →
      runLines dl a lines = .ok (rows, fin) →
      rowsChOK S rows ∧ innerChOK S fin := by
  induction lines with
  | nil =>
    intro a rows fin ha _ h
    unfold runLines at h
    cases h
    exact ⟨fun r hr => by simp at hr, ha⟩
  | cons ln rest ih =>
    intro a rows fin ha hlines h
    unfold runLines at h
    cases hpl : processLineE dl a ln with
    | error e =>
      rw [hpl] at h
      exact Except.noConfusion h
    | ok a2 =>
      rw [hpl] at h
      dsimp only at h
      have ha2 := processLineE_chars S dl ln a a2 ha
        (hlines ln (List.mem_cons_self _ _)) hpl
      have hrest : ∀ l ∈ rest, ∀ c ∈ l, S c :=
        fun l hl => hlines l (List.mem_cons_of_mem _ hl)
      by_cases hst : a2.st = RState.startRecord
      · rw [if_pos hst] at h
        cases hrun : runLines dl initInner rest with
        | error e => rw [hrun] at h; exact Except.noConfusion h
        | ok pr =>
          rw [hrun] at h
          obtain ⟨rows2, fin2⟩ := pr
          dsimp only at h
          rw [Except.ok.injEq, Prod.mk.injEq] at h
          obtain ⟨hre, hfe⟩ := h
          subst hre
          subst hfe
          obtain ⟨hrows, hfin⟩ := ih initInner rows2 fin2 (initInner_chars S) hrest hrun
          refine ⟨?_, hfin⟩
          intro r hr cell hcell d hd
          rcases List.mem_cons.mp hr with rfl | hr2
          · exact ha2.2 cell hcell d hd
          · exact hrows r hr2 cell hcell d hd
      · rw [if_neg hst] at h
        exact ih a2 rows fin ha2 hrest h

theorem readRowsE_chars (S : Char → Prop) (dl : SniffedDialect)
    (lines : List PyStr) (rows : List (List PyStr))
    (hlines : ∀ ln ∈ lines, ∀ c ∈ ln, S c)
    (h : readRowsE dl lines = .ok rows) : rowsChOK S rows := by
  unfold readRowsE at h
  cases hrun : runLines dl initInner lines with
  | error e => rw [hrun] at h; exact Except.noConfusion h
  | ok pr =>
    rw [hrun] at h
    obtain ⟨rows2, fin2⟩ := pr
    dsimp only at h
    obtain ⟨hrows, hfin⟩ := runLines_chars S dl lines initInner rows2 fin2
      (initInner_chars S) hlines hrun
    by_cases hfl : fin2.field ≠ [] ∨ fin2.st = RState.inQuoted
    · rw [if_pos hfl] at h
      cases h
      intro r hr cell hcell d hd
      rcases List.mem_append.mp hr with hr2 | hr2
      · exact hrows r hr2 cell hcell d hd
      · simp only [List.mem_singleton] at hr2
        subst hr2
        rcases List.mem_append.mp hcell with hc2 | hc2
        · exact hfin.2 cell hc2 d hd
        · simp only [List.mem_singleton] at hc2
          subst hc2
          exact hfin.1 d hd
    · rw [if_neg hfl] at h
      cases h
      exact hrows

/-! ### Claim C9 (cells never contain line-break characters) -/

/-- C9: no cell of any row produced by `parse_text_to_rows` contains a
line-break character: the input is split into lines first, and no
strategy reassembles line breaks into a cell (the reader joins a quoted
field spanning lines without inserting anything). -/
theorem C9_no_line_breaks (text : PyStr) :
    ∀ row ∈ parse_text_to_rows text, ∀ cell ∈ row, ∀ c ∈ cell,
      isLineBoundary c = false := by
  intro row hrow cell hcell c hc
  have hlineOK := retainedLines_no_boundary text
  by_cases hl : retainedLines text = []
  · rw [parse_text_to_rows, if_pos hl] at hrow
    simp at hrow
  · rw [parse_text_to_rows, if_neg hl] at hrow
    by_cases ht : '\t' ∈ sampleOf text
    · rw [if_pos ht] at hrow
      obtain ⟨ln, hln, rfl⟩ := List.mem_map.mp hrow
      rcases pySplitCharAux_chars '\t' ln [] cell hcell c hc with h | h
      · exact hlineOK ln hln c h
      · simp at h
    · rw [if_neg ht] at hrow
      have hfb : row ∈ alignedFallback (retainedLines text) →
          isLineBoundary c = false := by
        intro hrow2
        obtain ⟨ln, hln, rfl⟩ := List.mem_map.mp hrow2
        obtain ⟨piece, hpiece, rfl⟩ := List.mem_map.mp hcell
        have hcp := pyStrip_subset piece c hc
        rcases reSplitWs2Aux_chars (pyStrip ln) [] false piece hpiece c hcp with h | h
        · exact hlineOK ln hln c (pyStrip_subset ln c h)
        · simp at h
      cases hs : sniffE (sampleOf text) with
      | error e =>
        rw [hs] at hrow
        exact hfb hrow
      | ok dl =>
        rw [hs] at hrow
        dsimp only at hrow
        cases hr : readRowsE dl (retainedLines text) with
        | error e =>
          rw [hr] at hrow
          exact hfb hrow
        | ok rows =>
          rw [hr] at hrow
          exact readRowsE_chars (fun d => isLineBoundary d = false) dl
            (retainedLines text) rows hlineOK hr row hrow cell hcell c hc

theorem C9_no_line_breaks_witness : isLineBoundary 'b' = false :=
  C9_no_line_breaks ("a,b\nc,d" : String).toList [['a'], ['b']] (by decide)
    ['b'] (by decide) 'b' (by decide)

/-! ### Row counts: the reader emits at most one row per line -/

theorem stepEOL_state (a : RdInner) :
    (stepEOL a).st = .startRecord ∨
    ((stepEOL a).st = .inQuoted ∧ a.st = .inQuoted ∧ stepEOL a = a) := by
  unfold stepEOL
  cases hst : a.st <;> simp [hst]

theorem processLineE_state (dl : SniffedDialect) (a a2 : RdInner) (ln : PyStr)
    (h : processLineE dl a ln = .ok a2) :
    a2.st = .startRecord ∨ a2.st = .inQuoted := by
  unfold processLineE at h
  cases hsteps : stepCharsE dl a ln with
  | error e => rw [hsteps] at h; exact Except.noConfusion h
  | ok a1 =>
    rw [hsteps] at h
    cases h
    rcases stepEOL_state a1 with h | ⟨h, _⟩
    · exact Or.inl h
    · exact Or.inr h

theorem runLines_length (dl : SniffedDialect) (lines : List PyStr) :
    ∀ (a : RdInner) (rows : List (List PyStr)) (fin : RdInner),
      runLines dl a lines = .ok (rows, fin) →
      rows.length + pendCount fin ≤ pendCount a + lines.length := by
  induction lines with
  | nil =>
    intro a rows fin h
    unfold runLines at h
    rw [Except.ok.injEq, Prod.mk.injEq] at h
    obtain ⟨hre, hfe⟩ := h
    subst hre
    subst hfe
    simp
  | cons ln rest ih =>
    intro a rows fin h
    unfold runLines at h
    cases hpl : processLineE dl a ln with
    | error e => rw [hpl] at h; exact Except.noConfusion h
    | ok a2 =>
      rw [hpl] at h
      dsimp only at h
      by_cases hst : a2.st = RState.startRecord
      · rw [if_pos hst] at h
        cases hrun : runLines dl initInner rest with
        | error e => rw [hrun] at h; exact Except.noConfusion h
        | ok pr =>
          rw [hrun] at h
          obtain ⟨rows2, fin2⟩ := pr
          dsimp only at h
          rw [Except.ok.injEq, Prod.mk.injEq] at h
          obtain ⟨hre, hfe⟩ := h
          subst hre
          subst hfe
          have hb := ih initInner rows2 fin2 hrun
          have h0 : pendCount initInner = 0 := by
            unfold pendCount initInner
            simp
          rw [h0] at hb
          simp only [List.length_cons]
          omega
      · rw [if_neg hst] at h
        have hq : a2.st = RState.inQuoted := by
          rcases processLineE_state dl a a2 ln hpl with h2 | h2
          · exact absurd h2 hst
          · exact h2
        have hb := ih a2 rows fin h
        have h1 : pendCount a2 = 1 := by
          unfold pendCount
          rw [if_pos (Or.inl hq)]
        rw [h1] at hb
        have h2 : pendCount a ≤ 1 := by
          unfold pendCount
          split <;> omega
        simp only [List.length_cons]
        omega

theorem readRowsE_length (dl : SniffedDialect) (lines : List PyStr)
    (rows : List (List PyStr)) (h : readRowsE dl lines = .ok rows) :
    rows.length ≤ lines.length := by
  unfold readRowsE at h
  cases hrun : runLines dl initInner lines with
  | error e => rw [hrun] at h; exact Except.noConfusion h
  | ok pr =>
    rw [hrun] at h
    obtain ⟨rows2, fin2⟩ := pr
    dsimp only at h
    have hb := runLines_length dl lines initInner rows2 fin2 hrun
    have h0 : pendCount initInner = 0 := by
      unfold pendCount initInner
      simp
    rw [h0] at hb
    by_cases hfl : fin2.field ≠ [] ∨ fin2.st = RState.inQuoted
    · rw [if_pos hfl] at h
      cases h
      have hp : pendCount fin2 = 1 := by
        unfold pendCount
        rw [if_pos (Or.symm hfl)]
      simp only [List.length_append, List.length_singleton]
      omega
    · rw [if_neg hfl] at h
      cases h
      omega

/-! ### Claim C2 (row-count invariant, amended) -/

/-- C2 (amended): the number of rows never exceeds the number of
non-blank lines, with equality in the tab and aligned-fallback paths
(and for empty input, zero rows); in the sniffed path a quoted field
spanning lines may merge several lines into one row, so only the
inequality holds there. -/
theorem C2_row_count (text : PyStr) :
    (parse_text_to_rows text).length ≤ (retainedLines text).length ∧
    ('\t' ∈ sampleOf text →
      (parse_text_to_rows text).length = (retainedLines text).length) ∧
    (sniffE (sampleOf text) = .error () →
      (parse_text_to_rows text).length = (retainedLines text).length) := by
  have htab : '\t' ∈ sampleOf text →
      (parse_text_to_rows text).length = (retainedLines text).length := by
    intro ht
    rw [parse_tab_eq text ht, List.length_map]
  have herr : sniffE (sampleOf text) = .error () →
      (parse_text_to_rows text).length = (retainedLines text).length := by
    intro hs
    by_cases ht : '\t' ∈ sampleOf text
    · exact htab ht
    · rw [parse_sniff_error_eq text ht hs]
      unfold alignedFallback
      rw [List.length_map]
  refine ⟨?_, htab, herr⟩
  by_cases hl : retainedLines text = []
  · rw [parse_text_to_rows, if_pos hl]
    simp
  · by_cases ht : '\t' ∈ sampleOf text
    · exact Nat.le_of_eq (htab ht)
    · cases hs : sniffE (sampleOf text) with
      | error e =>
        cases e
        exact Nat.le_of_eq (herr hs)
      | ok dl =>
        cases hr : readRowsE dl (retainedLines text) with
        | error e =>
          cases e
          rw [parse_read_error_eq text ht dl hs hr]
          unfold alignedFallback
          rw [List.length_map]
        | ok rows =>
          rw [parse_sniffed_eq text ht dl hs rows hr hl]
          exact readRowsE_length dl (retainedLines text) rows hr

theorem C2_row_count_witness :
    (parse_text_to_rows ("a\tb\nc d" : String).toList).length =
      (retainedLines ("a\tb\nc d" : String).toList).length :=
  (C2_row_count ("a\tb\nc d" : String).toList).2.1 (by decide)

/-! ### The reader on quote-free lines: plain delimiter splitting -/

theorem pySplitCharAux_shift (sep : Char) (s : PyStr) :
    ∃ p t, pySplitChar sep s = p :: t ∧
      ∀ acc : PyStr, pySplitCharAux sep s acc = (acc.reverse ++ p) :: t := by
  induction s with
  | nil =>
    refine ⟨[], [], rfl, ?_⟩
    intro acc
    simp [pySplitCharAux]
  | cons c rest ih =>
    by_cases hc : c = sep
    · refine ⟨[], pySplitChar sep rest, ?_, ?_⟩
      · show pySplitCharAux sep (c :: rest) [] = _
        unfold pySplitCharAux
        rw [if_pos hc]
        rfl
      · intro acc
        unfold pySplitCharAux
        rw [if_pos hc]
        simp [pySplitChar]
    · obtain ⟨p, t, hpt, hacc⟩ := ih
      refine ⟨c :: p, t, ?_, ?_⟩
      · show pySplitCharAux sep (c :: rest) [] = _
        unfold pySplitCharAux
        rw [if_neg hc, hacc [c]]
        rfl
      · intro acc
        unfold pySplitCharAux
        rw [if_neg hc, hacc (c :: acc)]
        simp

theorem sisDrop_nil (dl : SniffedDialect) : sisDrop dl [] = [] := by
  unfold sisDrop
  split <;> rfl

theorem sisDrop_cons_of_ne_space (dl : SniffedDialect) (c : Char) (p : PyStr)
    (h : dl.skipinitialspace = true → c ≠ ' ') : sisDrop dl (c :: p) = c :: p := by
  unfold sisDrop
  split
  · rename_i hs
    rw [List.dropWhile_cons, if_neg (by simp [h hs])]
  · rfl

theorem sisDrop_cons_space (dl : SniffedDialect) (p : PyStr)
    (h : dl.skipinitialspace = true) : sisDrop dl (' ' :: p) = sisDrop dl p := by
  unfold sisDrop
  rw [if_pos h, if_pos h, List.dropWhile_cons, if_pos (by simp)]

theorem stepChar_of_startField (dl : SniffedDialect) (a : RdInner) (c : Char)
    (hst : a.st = .startField) :
    stepChar dl a c = stepStartField dl a c := by
  unfold stepChar
  rw [hst]

theorem stepChar_of_startRecord (dl : SniffedDialect) (a : RdInner) (c : Char)
    (hst : a.st = .startRecord) (hnl : ¬(c = '\n' ∨ c = '\r')) :
    stepChar dl a c = stepStartField dl { a with st := .startField } c := by
  unfold stepChar
  rw [hst]
  dsimp only
  rw [if_neg hnl]

theorem stepChar_of_inField_delim (dl : SniffedDialect) (a : RdInner) (c : Char)
    (hst : a.st = .inField) (hnl : ¬(c = '\n' ∨ c = '\r'))
    (hdel : c = dl.delimiter) :
    stepChar dl a c = .ok { saveField a with st := .startField } := by
  unfold stepChar
  rw [hst]
  dsimp only
  rw [if_neg hnl, if_pos hdel]

theorem stepChar_of_inField_add (dl : SniffedDialect) (a : RdInner) (c : Char)
    (hst : a.st = .inField) (hnl : ¬(c = '\n' ∨ c = '\r'))
    (hdel : c ≠ dl.delimiter) (hlim : a.field.length < fieldSizeLimit) :
    stepChar dl a c = .ok { a with field := a.field ++ [c] } := by
  unfold stepChar
  rw [hst]
  dsimp only
  rw [if_neg hnl, if_neg hdel, if_neg (Nat.not_le.mpr hlim)]

theorem stepStartField_clean (dl : SniffedDialect) (a : RdInner) (c : Char)
    (hnl : ¬(c = '\n' ∨ c = '\r')) (hq : c ≠ dl.quotechar)
    (hlim : a.field.length < fieldSizeLimit) :
    stepStartField dl a c =
      (if c = ' ' ∧ dl.skipinitialspace = true then .ok { a with st := .startField }
       else if c = dl.delimiter then .ok { saveField a with st := .startField }
       else .ok { a with field := a.field ++ [c], st := .inField }) := by
  unfold stepStartField
  rw [if_neg hnl, if_neg hq]
  by_cases hsp : c = ' ' ∧ dl.skipinitialspace = true
  · rw [if_pos hsp, if_pos hsp]
  · rw [if_neg hsp, if_neg hsp]
    by_cases hdel : c = dl.delimiter
    · rw [if_pos hdel, if_pos hdel]
    · rw [if_neg hdel, if_neg hdel, if_neg (Nat.not_le.mpr hlim)]

theorem stepCharsE_clean (dl : SniffedDialect)
    (hsep : dl.skipinitialspace = true → dl.delimiter ≠ ' ') :
    ∀ s : PyStr, (∀ c ∈ s, c ≠ dl.quotechar ∧ c ≠ '\r' ∧ c ≠ '\n') →
    (∀ flds : List PyStr,
      (∀ p ∈ pySplitChar dl.delimiter s, p.length ≤ fieldSizeLimit) →
      ∃ a2 : RdInner, stepCharsE dl ⟨.startField, [], flds⟩ s = .ok a2 ∧
        ((a2.st = .startField ∧ a2.field = []) ∨ a2.st = .inField) ∧
        a2.fields ++ [a2.field] =
          flds ++ (pySplitChar dl.delimiter s).map (sisDrop dl)) ∧
    (∀ (flds : List PyStr) (f : PyStr),
      (∀ p t, pySplitChar dl.delimiter s = p :: t →
        f.length + p.length ≤ fieldSizeLimit ∧
        ∀ q ∈ t, q.length ≤ fieldSizeLimit) →
      ∃ a2 : RdInner, stepCharsE dl ⟨.inField, f, flds⟩ s = .ok a2 ∧
        ((a2.st = .startField ∧ a2.field = []) ∨ a2.st = .inField) ∧
        ∀ p t, pySplitChar dl.delimiter s = p :: t →
          a2.fields ++ [a2.field] =
            flds ++ (f ++ p) :: t.map (sisDrop dl)) := by
  intro s
  induction s with
  | nil =>
    intro _
    constructor
    · intro flds _
      refine ⟨⟨.startField, [], flds⟩, rfl, Or.inl ⟨rfl, rfl⟩, ?_⟩
      show flds ++ [[]] = flds ++ (pySplitChar dl.delimiter []).map (sisDrop dl)
      rw [show pySplitChar dl.delimiter [] = [[]] from rfl]
      simp [sisDrop_nil]
    · intro flds f _
      refine ⟨⟨.inField, f, flds⟩, rfl, Or.inr rfl, ?_⟩
      intro p t hpt
      rw [show pySplitChar dl.delimiter [] = [[]] from rfl] at hpt
      rw [List.cons.injEq] at hpt
      obtain ⟨hp, ht⟩ := hpt
      rw [← hp, ← ht]
      simp
  | cons c rest ih =>
    intro hclean
    have hc := hclean c (List.mem_cons_self _ _)
    have hrest := fun d hd => hclean d (List.mem_cons_of_mem c hd)
    obtain ⟨ihS, ihF⟩ := ih hrest
    obtain ⟨p0, t0, hpt0, hacc0⟩ := pySplitCharAux_shift dl.delimiter rest
    have hnotnl : ¬(c = '\n' ∨ c = '\r') := by
      rintro (h | h)
      · exact hc.2.2 h
      · exact hc.2.1 h
    constructor
    · -- from START_FIELD with empty field
      intro flds hbound
      by_cases hsp : c = ' ' ∧ dl.skipinitialspace = true
      · -- skipinitialspace: swallow the leading space
        have hco : pySplitChar dl.delimiter (c :: rest) = (c :: p0) :: t0 := by
          show pySplitCharAux dl.delimiter (c :: rest) [] = _
          unfold pySplitCharAux
          rw [if_neg (by rw [hsp.1]; exact (hsep hsp.2).symm), hacc0 [c]]
          rfl
        have hbrest : ∀ p ∈ pySplitChar dl.delimiter rest,
            p.length ≤ fieldSizeLimit := by
          intro p hp
          rw [hpt0] at hp
          rcases List.mem_cons.mp hp with he | hp2
          · rw [he]
            have := hbound (c :: p0) (by rw [hco]; exact List.mem_cons_self _ _)
            simp only [List.length_cons] at this
            omega
          · exact hbound p (by rw [hco]; exact List.mem_cons_of_mem _ hp2)
        obtain ⟨a2, hrun, hstate, hfields⟩ := ihS flds hbrest
        refine ⟨a2, ?_, hstate, ?_⟩
        · unfold stepCharsE
          rw [stepChar_of_startField dl ⟨.startField, [], flds⟩ c rfl,
            stepStartField_clean dl ⟨.startField, [], flds⟩ c hnotnl hc.1
              (by exact (by decide : (0 : Nat) < fieldSizeLimit)),
            if_pos hsp]
          exact hrun
        · rw [hco, hfields, hpt0]
          simp only [List.map_cons]
          rw [hsp.1, sisDrop_cons_space dl p0 hsp.2]
      · by_cases hdel : c = dl.delimiter
        · -- empty field ends here
          have hco : pySplitChar dl.delimiter (c :: rest) =
              [] :: pySplitChar dl.delimiter rest := by
            show pySplitCharAux dl.delimiter (c :: rest) [] = _
            unfold pySplitCharAux
            rw [if_pos hdel]
            rfl
          have hbrest : ∀ p ∈ pySplitChar dl.delimiter rest,
              p.length ≤ fieldSizeLimit := by
            intro p hp
            exact hbound p (by rw [hco]; exact List.mem_cons_of_mem _ hp)
          obtain ⟨a2, hrun, hstate, hfields⟩ := ihS (flds ++ [[]]) hbrest
          refine ⟨a2, ?_, hstate, ?_⟩
          · unfold stepCharsE
            rw [stepChar_of_startField dl ⟨.startField, [], flds⟩ c rfl,
              stepStartField_clean dl ⟨.startField, [], flds⟩ c hnotnl hc.1
                (by exact (by decide : (0 : Nat) < fieldSizeLimit)),
              if_neg hsp, if_pos hdel]
            exact hrun
          · rw [hco, hfields]
            simp [sisDrop_nil]
        · -- an ordinary character starts the field
          have hco : pySplitChar dl.delimiter (c :: rest) = (c :: p0) :: t0 := by
            show pySplitCharAux dl.delimiter (c :: rest) [] = _
            unfold pySplitCharAux
            rw [if_neg hdel, hacc0 [c]]
            rfl
          have hbrest : ∀ p t, pySplitChar dl.delimiter rest = p :: t →
              ([c] : PyStr).length + p.length ≤ fieldSizeLimit ∧
              ∀ q ∈ t, q.length ≤ fieldSizeLimit := by
            intro p t hpt
            rw [hpt0] at hpt
            rw [List.cons.injEq] at hpt
            obtain ⟨hp, ht⟩ := hpt
            subst hp
            subst ht
            constructor
            · have := hbound (c :: p0) (by rw [hco]; exact List.mem_cons_self _ _)
              simp only [List.length_cons, List.length_nil] at this ⊢
              omega
            · intro q hq
              exact hbound q (by rw [hco]; exact List.mem_cons_of_mem _ hq)
          obtain ⟨a2, hrun, hstate, hfields⟩ := ihF flds [c] hbrest
          refine ⟨a2, ?_, hstate, ?_⟩
          · unfold stepCharsE
            rw [stepChar_of_startField dl ⟨.startField, [], flds⟩ c rfl,
              stepStartField_clean dl ⟨.startField, [], flds⟩ c hnotnl hc.1
                (by exact (by decide : (0 : Nat) < fieldSizeLimit)),
              if_neg hsp, if_neg hdel]
            exact hrun
          · rw [hco, hfields p0 t0 hpt0]
            simp only [List.map_cons]
            rw [sisDrop_cons_of_ne_space dl c p0
              (fun hs hcs => hsp ⟨hcs, hs⟩)]
            rfl
    · -- from IN_FIELD with partial field f
      intro flds f hbound
      by_cases hdel : c = dl.delimiter
      · have hco : pySplitChar dl.delimiter (c :: rest) =
            [] :: pySplitChar dl.delimiter rest := by
          show pySplitCharAux dl.delimiter (c :: rest) [] = _
          unfold pySplitCharAux
          rw [if_pos hdel]
          rfl
        have hbrest : ∀ p ∈ pySplitChar dl.delimiter rest,
            p.length ≤ fieldSizeLimit := by
          intro p hp
          exact (hbound [] (pySplitChar dl.delimiter rest) hco).2 p hp
        obtain ⟨a2, hrun, hstate, hfields⟩ := ihS (flds ++ [f]) hbrest
        refine ⟨a2, ?_, hstate, ?_⟩
        · unfold stepCharsE
          rw [stepChar_of_inField_delim dl ⟨.inField, f, flds⟩ c rfl hnotnl hdel]
          dsimp only
          exact hrun
        · intro p t hpt
          rw [hco, List.cons.injEq] at hpt
          obtain ⟨hp, ht⟩ := hpt
          subst hp
          rw [hfields, ← ht]
          simp
      · have hco : pySplitChar dl.delimiter (c :: rest) = (c :: p0) :: t0 := by
          show pySplitCharAux dl.delimiter (c :: rest) [] = _
          unfold pySplitCharAux
          rw [if_neg hdel, hacc0 [c]]
          rfl
        have hbfirst := (hbound (c :: p0) t0 hco).1
        have hbtail := (hbound (c :: p0) t0 hco).2
        have hbrest : ∀ p t, pySplitChar dl.delimiter rest = p :: t →
            (f ++ [c]).length + p.length ≤ fieldSizeLimit ∧
            ∀ q ∈ t, q.length ≤ fieldSizeLimit := by
          intro p t hpt
          rw [hpt0] at hpt
          rw [List.cons.injEq] at hpt
          obtain ⟨hp, ht⟩ := hpt
          subst hp
          subst ht
          constructor
          · simp only [List.length_append, List.length_cons, List.length_nil]
            simp only [List.length_cons] at hbfirst
            omega
          · exact hbtail
        obtain ⟨a2, hrun, hstate, hfields⟩ := ihF flds (f ++ [c]) hbrest
        refine ⟨a2, ?_, hstate, ?_⟩
        · unfold stepCharsE
          rw [stepChar_of_inField_add dl ⟨.inField, f, flds⟩ c rfl hnotnl hdel
            (by
              show f.length < fieldSizeLimit
              simp only [List.length_cons] at hbfirst
              omega)]
          dsimp only
          exact hrun
        · intro p t hpt
          rw [hco, List.cons.injEq] at hpt
          obtain ⟨hp, ht⟩ := hpt
          subst ht
          rw [hfields p0 t0 hpt0, ← hp]
          simp

theorem processLineE_clean (dl : SniffedDialect)
    (hsep : dl.skipinitialspace = true → dl.delimiter ≠ ' ') (ln : PyStr)
    (hne : ln ≠ []) (hclean : ∀ c ∈ ln, c ≠ dl.quotechar ∧ c ≠ '\r' ∧ c ≠ '\n')
    (hpieces : ∀ p ∈ pySplitChar dl.delimiter ln, p.length ≤ fieldSizeLimit) :
    processLineE dl initInner ln =
      .ok ⟨.startRecord, [], (pySplitChar dl.delimiter ln).map (sisDrop dl)⟩ := by
  obtain ⟨c, rest, rfl⟩ : ∃ c rest, ln = c :: rest := by
    cases ln with
    | nil => exact absurd rfl hne
    | cons c rest => exact ⟨c, rest, rfl⟩
  have hc := hclean c (List.mem_cons_self _ _)
  have hnotnl : ¬(c = '\n' ∨ c = '\r') := by
    rintro (h | h)
    · exact hc.2.2 h
    · exact hc.2.1 h
  have hshift : stepCharsE dl initInner (c :: rest) =
      stepCharsE dl ⟨.startField, [], []⟩ (c :: rest) := by
    unfold stepCharsE
    rw [stepChar_of_startRecord dl initInner c rfl hnotnl,
      stepChar_of_startField dl ⟨.startField, [], []⟩ c rfl]
    rfl
  obtain ⟨a2, hrun, hstate, hfields⟩ :=
    (stepCharsE_clean dl hsep (c :: rest) hclean).1 [] hpieces
  have hout : stepEOL a2 =
      ⟨.startRecord, [], (pySplitChar dl.delimiter (c :: rest)).map (sisDrop dl)⟩ := by
    have hfe : a2.fields ++ [a2.field] =
        (pySplitChar dl.delimiter (c :: rest)).map (sisDrop dl) := by
      rw [hfields]
      rfl
    rcases hstate with ⟨hst, _⟩ | hst
    · unfold stepEOL
      rw [hst]
      dsimp only
      rw [show ({ saveField a2 with st := RState.startRecord } : RdInner) =
        ⟨.startRecord, [], a2.fields ++ [a2.field]⟩ from rfl, hfe]
    · unfold stepEOL
      rw [hst]
      dsimp only
      rw [show ({ saveField a2 with st := RState.startRecord } : RdInner) =
        ⟨.startRecord, [], a2.fields ++ [a2.field]⟩ from rfl, hfe]
  unfold processLineE
  rw [hshift, hrun]
  dsimp only
  rw [hout]

theorem runLines_clean (dl : SniffedDialect)
    (hsep : dl.skipinitialspace = true → dl.delimiter ≠ ' ') (lines : List PyStr)
    (hlines : ∀ ln ∈ lines, ln ≠ [] ∧
      ∀ c ∈ ln, c ≠ dl.quotechar ∧ c ≠ '\r' ∧ c ≠ '\n')
    (hpieces : ∀ ln ∈ lines, ∀ p ∈ pySplitChar dl.delimiter ln,
      p.length ≤ fieldSizeLimit) :
    runLines dl initInner lines =
      .ok (lines.map (fun ln => (pySplitChar dl.delimiter ln).map (sisDrop dl)),
        initInner) := by
  induction lines with
  | nil => rfl
  | cons ln rest ih =>
    have hln := hlines ln (List.mem_cons_self _ _)
    have hrest := fun l hl => hlines l (List.mem_cons_of_mem ln hl)
    have hprest := fun l hl => hpieces l (List.mem_cons_of_mem ln hl)
    unfold runLines
    rw [processLineE_clean dl hsep ln hln.1 hln.2
      (hpieces ln (List.mem_cons_self _ _))]
    dsimp only
    rw [if_pos rfl, ih hrest hprest]
    rfl

theorem readRowsE_clean (dl : SniffedDialect)
    (hsep : dl.skipinitialspace = true → dl.delimiter ≠ ' ') (lines : List PyStr)
    (hlines : ∀ ln ∈ lines, ln ≠ [] ∧
      ∀ c ∈ ln, c ≠ dl.quotechar ∧ c ≠ '\r' ∧ c ≠ '\n')
    (hpieces : ∀ ln ∈ lines, ∀ p ∈ pySplitChar dl.delimiter ln,
      p.length ≤ fieldSizeLimit) :
    readRowsE dl lines =
      .ok (lines.map (fun ln => (pySplitChar dl.delimiter ln).map (sisDrop dl))) := by
  unfold readRowsE
  rw [runLines_clean dl hsep lines hlines hpieces]
  dsimp only
  rw [if_neg (by unfold initInner; simp)]

/-! ### The quote regexes find nothing in a quote-free sample -/

theorem matchP1_none (s : PyStr) (hq : ∀ c ∈ s, isQuoteCh c = false) (i : Nat) :
    matchP1 s i = none := by
  cases h0 : s[i]? with
  | none => simp [matchP1, h0]
  | some c0 =>
    simp only [matchP1, h0]
    split
    · split
      · cases h2 : s[i+2]? with
        | none => rfl
        | some q => simp [hq q (List.getElem?_mem h2)]
      · cases h1 : s[i+1]? with
        | none => rfl
        | some q => simp [hq q (List.getElem?_mem h1)]
    · rfl

theorem matchP2Body_none (s : PyStr) (hq : ∀ c ∈ s, isQuoteCh c = false) (j : Nat) :
    matchP2Body s j = none := by
  cases h0 : s[j]? with
  | none => simp [matchP2Body, h0]
  | some q =>
    simp only [matchP2Body, h0]
    simp [hq q (List.getElem?_mem h0)]

theorem matchP2_none (s : PyStr) (hq : ∀ c ∈ s, isQuoteCh c = false) (i : Nat) :
    matchP2 s i = none := by
  unfold matchP2
  simp [matchP2Body_none s hq]

theorem matchP3_none (s : PyStr) (hq : ∀ c ∈ s, isQuoteCh c = false) (i : Nat) :
    matchP3 s i = none := by
  cases h0 : s[i]? with
  | none => simp [matchP3, h0]
  | some c0 =>
    simp only [matchP3, h0]
    split
    · split
      · cases h2 : s[i+2]? with
        | none => rfl
        | some q => simp [hq q (List.getElem?_mem h2)]
      · cases h1 : s[i+1]? with
        | none => rfl
        | some q => simp [hq q (List.getElem?_mem h1)]
    · rfl

theorem matchP4Body_none (s : PyStr) (hq : ∀ c ∈ s, isQuoteCh c = false) (j : Nat) :
    matchP4Body s j = none := by
  cases h0 : s[j]? with
  | none => simp [matchP4Body, h0]
  | some q =>
    simp only [matchP4Body, h0]
    simp [hq q (List.getElem?_mem h0)]

theorem matchP4_none (s : PyStr) (hq : ∀ c ∈ s, isQuoteCh c = false) (i : Nat) :
    matchP4 s i = none := by
  unfold matchP4
  simp [matchP4Body_none s hq]

theorem findallAux_none (step : Nat → Option (Nat × QDMatch))
    (hstep : ∀ i, step i = none) : ∀ fuel i, findallAux step i fuel = [] := by
  intro fuel
  induction fuel with
  | zero => intro i; rfl
  | succ n ih =>
    intro i
    unfold findallAux
    rw [hstep i]
    exact ih (i + 1)

theorem qdMatches_noquotes (s : PyStr) (hq : ∀ c ∈ s, isQuoteCh c = false) :
    qdMatches s = [] := by
  unfold qdMatches findallP1 findallP2 findallP3 findallP4
  rw [findallAux_none _ (matchP1_none s hq) _ 0,
    findallAux_none _ (matchP2_none s hq) _ 0,
    findallAux_none _ (matchP3_none s hq) _ 0,
    findallAux_none _ (matchP4_none s hq) _ 0]
  rfl

theorem sniffE_noquotes (s : PyStr) (hq : ∀ c ∈ s, isQuoteCh c = false) :
    sniffE s = match guessDelimiter s with
      | some (d, sis) => .ok ⟨d, '"', false, sis⟩
      | none => .error () := by
  unfold sniffE guessQuoteAndDelimiter
  rw [qdMatches_noquotes s hq]
  rfl

/-! ### `_guess_delimiter` on a sample with exactly one candidate delimiter -/

theorem assocSet_fresh {β : Type} (l : List (Char × β)) (key : Char) (val : β)
    (h : ∀ kv ∈ l, kv.1 ≠ key) : assocSet l key val = l ++ [(key, val)] := by
  induction l with
  | nil => rfl
  | cons kv rest ih =>
    unfold assocSet
    rw [if_neg (h kv (List.mem_cons_self _ _)),
      ih (fun x hx => h x (List.mem_cons_of_mem _ hx))]
    rfl

theorem metaIncr_same (k j : Nat) : metaIncr [(k, j)] k = [(k, j + 1)] := by
  unfold metaIncr
  rw [if_pos rfl]

theorem metaOf_const_aux (c : Char) (k : Nat) (ls : List PyStr) :
    ∀ (j : Nat), (∀ ln ∈ ls, countCh c ln = k) →
    ls.foldl (fun m ln => metaIncr m (countCh c ln)) [(k, j)] = [(k, j + ls.length)] := by
  induction ls with
  | nil => intro j _; rfl
  | cons l0 rest ih =>
    intro j h
    rw [List.foldl_cons, h l0 (List.mem_cons_self _ _), metaIncr_same,
      ih (j + 1) (fun x hx => h x (List.mem_cons_of_mem _ hx))]
    have : j + 1 + rest.length = j + (l0 :: rest).length := by
      simp [List.length_cons]; omega
    rw [this]

theorem metaOf_const (c : Char) (k : Nat) (ls : List PyStr) (hne : ls ≠ [])
    (h : ∀ ln ∈ ls, countCh c ln = k) : metaOf c ls = [(k, ls.length)] := by
  match ls, hne with
  | l0 :: rest, _ =>
    unfold metaOf
    rw [List.foldl_cons, h l0 (List.mem_cons_self _ _)]
    show List.foldl _ [(k, 1)] rest = _
    rw [metaOf_const_aux c k rest 1 (fun x hx => h x (List.mem_cons_of_mem _ hx))]
    have : 1 + rest.length = (l0 :: rest).length := by simp [List.length_cons, Nat.add_comm]
    rw [this]

theorem isSingleZero_pos (k n : Nat) (hk : 0 < k) : isSingleZero [(k, n)] = false := by
  unfold isSingleZero
  match k, hk with
  | j + 1, _ => rfl

theorem updateModes_nil_eq (processed : List PyStr) (l : List Char) :
    ∀ (ms : List (Char × (Nat × Int))), l.Nodup →
    (∀ c ∈ l, ∀ kv ∈ ms, kv.1 ≠ c) →
    l.foldl (fun ms c =>
      let items := metaOf c processed
      if isSingleZero items then ms else assocSet ms c (modeCalc items)) ms
    = ms ++ (l.filter (fun c => !isSingleZero (metaOf c processed))).map
        (fun c => (c, modeCalc (metaOf c processed))) := by
  induction l with
  | nil => intro ms _ _; simp
  | cons c rest ih =>
    intro ms hnd hfresh
    rw [List.foldl_cons]
    cases hz : isSingleZero (metaOf c processed) with
    | true =>
      dsimp only
      rw [if_pos hz, ih ms hnd.of_cons
        (fun c2 hc2 => hfresh c2 (List.mem_cons_of_mem _ hc2))]
      simp [List.filter_cons, hz]
    | false =>
      dsimp only
      rw [if_neg (by rw [hz]; exact Bool.false_ne_true),
        assocSet_fresh ms c _ (fun kv hkv => hfresh c (List.mem_cons_self _ _) kv hkv)]
      rw [ih (ms ++ [(c, modeCalc (metaOf c processed))]) hnd.of_cons]
      · simp [List.filter_cons, hz]
      · intro c2 hc2 kv hkv
        rcases List.mem_append.mp hkv with hm | hm
        · exact hfresh c2 (List.mem_cons_of_mem _ hc2) kv hm
        · rcases List.mem_singleton.mp hm with rfl
          intro he
          have he2 : c = c2 := he
          subst he2
          exact (List.nodup_cons.mp hnd).1 hc2

theorem passLevel_nil_eq (total j : Nat) (l : List (Char × (Nat × Int))) :
    (l.map Prod.fst).Nodup →
    passLevel l [] total j = l.filter (fun kv => decide (kv.2.1 > 0 ∧ kv.2.2 > 0 ∧
      kv.2.2 * 100 ≥ (total : Int) * (100 - (j : Int)) ∧ kv.1 ∈ candidateDelims)) := by
  unfold passLevel
  suffices hgen : ∀ (ds : List (Char × (Nat × Int))), (l.map Prod.fst).Nodup →
      (∀ kv ∈ l, ∀ kv2 ∈ ds, kv2.1 ≠ kv.1) →
      l.foldl (fun ds kv =>
        if kv.2.1 > 0 ∧ kv.2.2 > 0 ∧ kv.2.2 * 100 ≥ (total : Int) * (100 - (j : Int)) ∧
            kv.1 ∈ candidateDelims
        then assocSet ds kv.1 kv.2 else ds) ds
      = ds ++ l.filter (fun kv => decide (kv.2.1 > 0 ∧ kv.2.2 > 0 ∧
          kv.2.2 * 100 ≥ (total : Int) * (100 - (j : Int)) ∧ kv.1 ∈ candidateDelims)) by
    intro hnd
    rw [hgen [] hnd (fun kv _ kv2 hkv2 => absurd hkv2 (List.not_mem_nil kv2))]
    rfl
  induction l with
  | nil => intro ds _ _; simp
  | cons kv rest ih =>
    intro ds hnd hfresh
    rw [List.foldl_cons]
    by_cases hp : kv.2.1 > 0 ∧ kv.2.2 > 0 ∧ kv.2.2 * 100 ≥ (total : Int) * (100 - (j : Int)) ∧
        kv.1 ∈ candidateDelims
    · rw [if_pos hp,
        assocSet_fresh ds kv.1 kv.2 (fun x hx => hfresh kv (List.mem_cons_self _ _) x hx)]
      have hkveq : (kv.1, kv.2) = kv := rfl
      rw [hkveq, ih (ds ++ [kv]) (by simpa using (List.nodup_cons.mp (by simpa using hnd)).2)]
      · simp [List.filter_cons, hp]
      · intro x hx kv2 hkv2
        rcases List.mem_append.mp hkv2 with hm | hm
        · exact hfresh x (List.mem_cons_of_mem _ hx) kv2 hm
        · rcases List.mem_singleton.mp hm with rfl
          intro he
          exact (List.nodup_cons.mp (by simpa using hnd)).1
            (he ▸ List.mem_map_of_mem Prod.fst hx)
    · rw [if_neg hp, ih ds (by simpa using (List.nodup_cons.mp (by simpa using hnd)).2)
        (fun x hx kv2 hkv2 => hfresh x (List.mem_cons_of_mem _ hx) kv2 hkv2)]
      simp [List.filter_cons, hp]

theorem filter_through (l : List Char) (q r : Char → Bool)
    (h : ∀ a, q a = true → r a = true) : l.filter q = (l.filter r).filter q := by
  induction l with
  | nil => rfl
  | cons a t ih =>
    cases hq : q a with
    | true =>
      rw [List.filter_cons_of_pos hq, List.filter_cons_of_pos (h a hq),
        List.filter_cons_of_pos hq, ih]
    | false =>
      rw [List.filter_cons_of_neg (by rw [hq]; exact Bool.false_ne_true)]
      cases hr : r a with
      | true =>
        rw [List.filter_cons_of_pos hr,
          List.filter_cons_of_neg (by rw [hq]; exact Bool.false_ne_true), ih]
      | false =>
        rw [List.filter_cons_of_neg (by rw [hr]; exact Bool.false_ne_true), ih]

set_option maxRecDepth 4000 in
theorem asciiChars_nodup : asciiChars.Nodup := by decide

set_option maxRecDepth 4000 in
theorem asciiChars_filter_cand :
    asciiChars.filter (fun c => decide (c ∈ candidateDelims)) = [',', ';', '|'] := by decide

theorem modes_first_chunk (chunk1 : List PyStr) :
    updateModes chunk1 [] =
      (asciiChars.filter (fun c => !isSingleZero (metaOf c chunk1))).map
        (fun c => (c, modeCalc (metaOf c chunk1))) := by
  unfold updateModes
  rw [updateModes_nil_eq chunk1 asciiChars [] asciiChars_nodup
    (fun c _ kv hkv => absurd hkv (List.not_mem_nil kv))]
  rfl

theorem modeCalc_single (k : Nat) (n : Nat) : modeCalc [(k, n)] = (k, (n : Int)) := rfl

theorem isSingleZero_zero (n : Nat) : isSingleZero [(0, n)] = true := rfl

set_option maxRecDepth 4000 in
theorem firstPass_single (chunk1 : List PyStr) (D : Char) (k : Nat)
    (hD : D ∈ candidateDelims) (hk : 0 < k) (hne : chunk1 ≠ [])
    (hcount : ∀ ln ∈ chunk1, countCh D ln = k)
    (hothers : ∀ c ∈ candidateDelims, c ≠ D → ∀ ln ∈ chunk1, countCh c ln = 0) :
    passLevel (updateModes chunk1 []) [] chunk1.length 0 =
      [(D, (k, (chunk1.length : Int)))] := by
  have hlen : 0 < chunk1.length := List.length_pos.mpr hne
  have hmetaD : metaOf D chunk1 = [(k, chunk1.length)] := metaOf_const D k chunk1 hne hcount
  have hmetaO : ∀ c ∈ candidateDelims, c ≠ D → metaOf c chunk1 = [(0, chunk1.length)] :=
    fun c hc hcd => metaOf_const c 0 chunk1 hne (hothers c hc hcd)
  rw [modes_first_chunk chunk1]
  rw [passLevel_nil_eq chunk1.length 0 _ (by
    rw [List.map_map]
    exact (List.map_id _ : List.map id _ = _) ▸ (asciiChars_nodup.filter _))]
  rw [List.filter_map, List.filter_filter]
  have step : ∀ (q : Char → Bool), (∀ c ∈ asciiChars, q c = decide (c = D)) →
      (asciiChars.filter q).map (fun c => (c, modeCalc (metaOf c chunk1))) =
        [(D, (k, (chunk1.length : Int)))] := by
    intro q hq
    rw [List.filter_congr hq]
    have hfD : asciiChars.filter (fun c => decide (c = D)) = [D] := by
      rcases show D = ',' ∨ D = ';' ∨ D = '|' from by simpa [candidateDelims] using hD
        with rfl | rfl | rfl
      · decide
      · decide
      · decide
    rw [hfD, List.map_cons, List.map_nil, hmetaD, modeCalc_single]
  refine step _ ?_
  intro c hc
  by_cases hcD : c = D
  · subst hcD
    have h1 : (0 : Int) < (chunk1.length : Int) := by exact_mod_cast hlen
    simp [Function.comp, hmetaD, modeCalc_single, isSingleZero_pos k _ hk, hk, hD, h1]
  · by_cases hcand : c ∈ candidateDelims
    · simp [Function.comp, hmetaO c hcand hcD, isSingleZero_zero, hcD]
    · simp [Function.comp, hcand, hcD]

theorem consistencyGo_first (modes : List (Char × (Nat × Int))) (total : Nat)
    (res : List (Char × (Nat × Int))) (hres : passLevel modes [] total 0 = res)
    (hne : res ≠ []) : consistencyGo modes total (List.range 10) [] = res := by
  rw [show List.range 10 = 0 :: [1, 2, 3, 4, 5, 6, 7, 8, 9] from rfl]
  unfold consistencyGo
  rw [if_neg (by simp), hres]
  unfold consistencyGo
  rw [if_pos hne]

theorem guessDelimiter_single (sample : PyStr) (D : Char) (k : Nat)
    (line0 : PyStr) (restL : List PyStr)
    (hdata : (pySplitChar '\n' sample).filter (fun l => decide (l ≠ [])) = line0 :: restL)
    (hD : D ∈ candidateDelims) (hk : 0 < k)
    (hcount : ∀ ln ∈ line0 :: restL, countCh D ln = k)
    (hothers : ∀ c ∈ candidateDelims, c ≠ D → ∀ ln ∈ line0 :: restL, countCh c ln = 0) :
    guessDelimiter sample = some (D, sisOf line0 D) := by
  have hcl_pos : 0 < min 10 (line0 :: restL).length := by
    simp [List.length_cons]
  have hcl_le : min 10 (line0 :: restL).length ≤ (line0 :: restL).length :=
    Nat.min_le_right _ _
  have hc1len : ((line0 :: restL).take (min 10 (line0 :: restL).length)).length
      = min 10 (line0 :: restL).length := by
    rw [List.length_take]
    exact Nat.min_eq_left hcl_le
  have hc1ne : (line0 :: restL).take (min 10 (line0 :: restL).length) ≠ [] :=
    List.length_pos.mp (hc1len.symm ▸ hcl_pos)
  have hchunk : chunkList (min 10 (line0 :: restL).length) (line0 :: restL)
      = (line0 :: restL).take (min 10 (line0 :: restL).length)
        :: chunkListAux (min 10 (line0 :: restL).length) restL.length
            ((line0 :: restL).drop (min 10 (line0 :: restL).length)) := by
    unfold chunkList
    show chunkListAux _ (restL.length + 1) _ = _
    conv_lhs => unfold chunkListAux
    rw [if_neg (Nat.pos_iff_ne_zero.mp hcl_pos)]
  have hfirst := firstPass_single
    ((line0 :: restL).take (min 10 (line0 :: restL).length)) D k hD hk hc1ne
    (fun ln hln => hcount ln (List.take_subset _ _ hln))
    (fun c hc hcd ln hln => hothers c hc hcd ln (List.take_subset _ _ hln))
  rw [hc1len] at hfirst
  have hcg := consistencyGo_first
    (updateModes ((line0 :: restL).take (min 10 (line0 :: restL).length)) [])
    (min 10 (line0 :: restL).length) _ hfirst (by simp)
  simp only [guessDelimiter]
  rw [hdata]
  dsimp only
  rw [hchunk]
  unfold gdLoop
  rw [List.nil_append, Nat.mul_one, Nat.min_eq_left hcl_le]
  dsimp only
  rw [hcg]

theorem pySplitCharAux_sep_split (sep : Char) (s : PyStr) :
    ∀ (t acc : PyStr), sep ∉ s →
    pySplitCharAux sep (s ++ sep :: t) acc = (acc.reverse ++ s) :: pySplitCharAux sep t [] := by
  induction s with
  | nil =>
    intro t acc _
    show pySplitCharAux sep (sep :: t) acc = _
    conv_lhs => unfold pySplitCharAux
    rw [if_pos rfl]
    simp
  | cons c s2 ih =>
    intro t acc hs
    show pySplitCharAux sep (c :: (s2 ++ sep :: t)) acc = _
    conv_lhs => unfold pySplitCharAux
    rw [if_neg (fun hc => hs (List.mem_cons.mpr (Or.inl hc.symm))),
      ih t (c :: acc) (fun hm => hs (List.mem_cons_of_mem _ hm))]
    simp

theorem pySplitChar_intercalate (sep : Char) (L : List PyStr) :
    L ≠ [] → (∀ l ∈ L, sep ∉ l) →
    pySplitChar sep (List.intercalate [sep] L) = L := by
  induction L with
  | nil => intro h _; exact absurd rfl h
  | cons x t ih =>
    intro _ hmem
    cases t with
    | nil =>
      rw [show List.intercalate [sep] [x] = x from by simp [List.intercalate]]
      exact pySplitChar_of_not_mem sep x (hmem x (List.mem_cons_self _ _))
    | cons y t2 =>
      rw [intercalate_cons_of_ne_nil [sep] x (y :: t2) (by simp)]
      rw [show x ++ [sep] ++ List.intercalate [sep] (y :: t2)
        = x ++ sep :: List.intercalate [sep] (y :: t2) from by simp]
      unfold pySplitChar
      rw [pySplitCharAux_sep_split sep x _ [] (hmem x (List.mem_cons_self _ _))]
      rw [show pySplitCharAux sep (List.intercalate [sep] (y :: t2)) []
        = pySplitChar sep (List.intercalate [sep] (y :: t2)) from rfl]
      rw [ih (by simp) (fun l hl => hmem l (List.mem_cons_of_mem _ hl))]
      simp

theorem mem_intercalate_sep (sep : Char) (L : List PyStr) :
    ∀ c ∈ List.intercalate [sep] L, c = sep ∨ ∃ l ∈ L, c ∈ l := by
  induction L with
  | nil => intro c hc; simp [List.intercalate] at hc
  | cons x t ih =>
    intro c hc
    cases t with
    | nil =>
      rw [show List.intercalate [sep] [x] = x from by simp [List.intercalate]] at hc
      exact Or.inr ⟨x, List.mem_cons_self _ _, hc⟩
    | cons y t2 =>
      rw [intercalate_cons_of_ne_nil [sep] x (y :: t2) (by simp)] at hc
      rcases List.mem_append.mp hc with h1 | h2
      · rcases List.mem_append.mp h1 with hx | hsep
        · exact Or.inr ⟨x, List.mem_cons_self _ _, hx⟩
        · exact Or.inl (List.mem_singleton.mp hsep)
      · rcases ih c h2 with h | ⟨l, hl, hcl⟩
        · exact Or.inl h
        · exact Or.inr ⟨l, List.mem_cons_of_mem _ hl, hcl⟩

theorem retainedLines_ne_nil (text : PyStr) : ∀ ln ∈ retainedLines text, ln ≠ [] := by
  intro ln hln hnil
  unfold retainedLines at hln
  have h2 := (List.mem_filter.mp hln).2
  rw [hnil] at h2
  simp [pyStrip] at h2

theorem retainedLines_no_nl (text : PyStr) :
    ∀ ln ∈ retainedLines text, ∀ c ∈ ln, c ≠ '\r' ∧ c ≠ '\n' := by
  intro ln hln c hc
  have hb := retainedLines_no_boundary text ln hln c hc
  constructor
  · intro he; rw [he] at hb; exact absurd hb (by decide)
  · intro he; rw [he] at hb; exact absurd hb (by decide)

theorem zip_map_self {α β : Type} (f : α → β) (l : List α) :
    (l.map f).zip l = l.map (fun x => (f x, x)) := by
  induction l with
  | nil => rfl
  | cons a t ih => simp [ih]

/-! ### Claim C5 (consistent single delimiter) -/

/-- C5 (amended): for every input whose sample contains no tab, in which
exactly one candidate delimiter `D` (comma, semicolon or pipe) occurs —
with the same non-zero count on every retained line, the other two
candidates absent, no single- or double-quote characters in the retained
lines, and every `D`-separated field within the reader's field-size limit
— `parse_text_to_rows` returns one row per retained line, and each row's
cell count is the number of occurrences of `D` on the corresponding line
plus one. -/
theorem C5_consistent_delimiter (text : PyStr) (D : Char) (k : Nat)
    (hD : D ∈ candidateDelims) (hk : 0 < k)
    (ht : '\t' ∉ sampleOf text)
    (hnl : retainedLines text ≠ [])
    (hq : ∀ ln ∈ retainedLines text, ∀ c ∈ ln, isQuoteCh c = false)
    (hcount : ∀ ln ∈ retainedLines text, countCh D ln = k)
    (hothers : ∀ c ∈ candidateDelims, c ≠ D →
      ∀ ln ∈ retainedLines text, countCh c ln = 0)
    (hsize : ∀ ln ∈ retainedLines text, ∀ p ∈ pySplitChar D ln,
      p.length ≤ fieldSizeLimit) :
    (parse_text_to_rows text).length = (retainedLines text).length ∧
      ∀ p ∈ (parse_text_to_rows text).zip (retainedLines text),
        p.1.length = countCh D p.2 + 1 := by
  obtain ⟨line0, restAll, hLeq⟩ : ∃ a t, retainedLines text = a :: t := by
    cases hL : retainedLines text with
    | nil => exact absurd hL hnl
    | cons a t => exact ⟨a, t, rfl⟩
  have htake_sub : ∀ ln ∈ (retainedLines text).take 20, ln ∈ retainedLines text :=
    fun ln hln => List.take_subset _ _ hln
  have hL20 : (retainedLines text).take 20 = line0 :: restAll.take 19 := by
    rw [hLeq, show (20 : Nat) = 19 + 1 from rfl, List.take_succ_cons]
  have hnolnl : ∀ l ∈ (retainedLines text).take 20, '\n' ∉ l := by
    intro l hl hm
    exact (retainedLines_no_nl text l (htake_sub l hl) '\n' hm).2 rfl
  have hsplit : (pySplitChar '\n' (sampleOf text)).filter (fun l => decide (l ≠ []))
      = line0 :: restAll.take 19 := by
    unfold sampleOf
    rw [pySplitChar_intercalate '\n' _ (by rw [hL20]; simp) hnolnl,
      List.filter_eq_self.mpr
        (fun l hl => decide_eq_true (retainedLines_ne_nil text l (htake_sub l hl)))]
    exact hL20
  have hmem20 : ∀ ln ∈ line0 :: restAll.take 19, ln ∈ retainedLines text := by
    intro ln hln
    rw [← hL20] at hln
    exact htake_sub ln hln
  have hguess := guessDelimiter_single (sampleOf text) D k line0 (restAll.take 19)
    hsplit hD hk (fun ln hln => hcount ln (hmem20 ln hln))
    (fun c hc hcd ln hln => hothers c hc hcd ln (hmem20 ln hln))
  have hqs : ∀ c ∈ sampleOf text, isQuoteCh c = false := by
    intro c hc
    rcases mem_intercalate_sep '\n' _ c hc with rfl | ⟨l, hl, hcl⟩
    · decide
    · exact hq l (htake_sub l hl) c hcl
  have hsniff : sniffE (sampleOf text) = .ok ⟨D, '"', false, sisOf line0 D⟩ := by
    rw [sniffE_noquotes (sampleOf text) hqs, hguess]
  have hsep : (⟨D, '"', false, sisOf line0 D⟩ : SniffedDialect).skipinitialspace = true →
      (⟨D, '"', false, sisOf line0 D⟩ : SniffedDialect).delimiter ≠ ' ' := by
    intro _
    show D ≠ ' '
    rcases show D = ',' ∨ D = ';' ∨ D = '|' from by simpa [candidateDelims] using hD
      with rfl | rfl | rfl <;> decide
  have hlines : ∀ ln ∈ retainedLines text, ln ≠ [] ∧
      ∀ c ∈ ln, c ≠ (⟨D, '"', false, sisOf line0 D⟩ : SniffedDialect).quotechar ∧
        c ≠ '\r' ∧ c ≠ '\n' := by
    intro ln hln
    refine ⟨retainedLines_ne_nil text ln hln, ?_⟩
    intro c hc
    have hb := retainedLines_no_nl text ln hln c hc
    refine ⟨?_, hb.1, hb.2⟩
    intro he
    have hqc := hq ln hln c hc
    rw [he] at hqc
    have hqc2 : isQuoteCh '"' = false := hqc
    exact absurd hqc2 (by decide)
  have hread := readRowsE_clean ⟨D, '"', false, sisOf line0 D⟩ hsep
    (retainedLines text) hlines hsize
  have hparse := parse_sniffed_eq text ht _ hsniff _ hread hnl
  rw [hparse]
  refine ⟨List.length_map _ _, ?_⟩
  intro p hp
  rw [zip_map_self] at hp
  rcases List.mem_map.mp hp with ⟨ln, hln, rfl⟩
  show ((pySplitChar D ln).map _).length = countCh D ln + 1
  rw [List.length_map, pySplitChar_length]

theorem C5_consistent_delimiter_witness :
    (parse_text_to_rows ("a,b\nc,d" : String).toList).length
        = (retainedLines ("a,b\nc,d" : String).toList).length ∧
      ∀ p ∈ (parse_text_to_rows ("a,b\nc,d" : String).toList).zip
          (retainedLines ("a,b\nc,d" : String).toList),
        p.1.length = countCh ',' p.2 + 1 :=
  C5_consistent_delimiter ("a,b\nc,d" : String).toList ',' 1 (by decide) (by decide)
    (by decide) (by decide) (by decide) (by decide) (by decide) (by decide)

/-- C5 counterexample: in `"a,b;c;d\ne,f;g;h"` the semicolon is a candidate
delimiter occurring the same non-zero number of times (twice) on every
non-blank line and no tab is present, yet no row has three cells: the comma
is also consistent, and the sniffer's preference order picks it. -/
theorem C5_consistent_delimiter_counterexample :
    ';' ∈ candidateDelims ∧
    '\t' ∉ sampleOf ("a,b;c;d\ne,f;g;h" : String).toList ∧
    (∀ ln ∈ retainedLines ("a,b;c;d\ne,f;g;h" : String).toList, countCh ';' ln = 2) ∧
    ¬ ∀ p ∈ (parse_text_to_rows ("a,b;c;d\ne,f;g;h" : String).toList).zip
        (retainedLines ("a,b;c;d\ne,f;g;h" : String).toList),
      p.1.length = countCh ';' p.2 + 1 := by decide

/-! ### Round-trip support: the serialized text's lines -/

theorem dropWhile_id_of_head {α : Type} (p : α → Bool) (l : List α)
    (h : ∀ c ∈ l.head?, p c = false) : l.dropWhile p = l := by
  cases l with
  | nil => rfl
  | cons a t => rw [List.dropWhile_cons_of_neg (by simp [h a rfl])]

theorem dropWhile_append_all {α : Type} (p : α → Bool) (a b : List α)
    (h : ∀ c ∈ a, p c = true) : (a ++ b).dropWhile p = b.dropWhile p := by
  induction a with
  | nil => rfl
  | cons x t ih =>
    rw [List.cons_append, List.dropWhile_cons_of_pos (h x (List.mem_cons_self _ _)),
      ih (fun c hc => h c (List.mem_cons_of_mem _ hc))]

theorem pyStrip_of_ends (s : PyStr)
    (hh : ∀ c ∈ s.head?, pyIsSpace c = false)
    (hl : ∀ c ∈ s.getLast?, pyIsSpace c = false) : pyStrip s = s := by
  unfold pyStrip
  rw [dropWhile_id_of_head pyIsSpace s hh,
    dropWhile_id_of_head pyIsSpace s.reverse
      (fun c hc => hl c ((List.head?_reverse s) ▸ hc)),
    List.reverse_reverse]

theorem pyStrip_append_ws (s t : PyStr) (hs : s ≠ [])
    (ht : ∀ c ∈ t, pyIsSpace c = true)
    (hh : ∀ c ∈ s.head?, pyIsSpace c = false)
    (hl : ∀ c ∈ s.getLast?, pyIsSpace c = false) : pyStrip (s ++ t) = s := by
  unfold pyStrip
  rw [dropWhile_id_of_head pyIsSpace (s ++ t)
    (fun c hc => hh c (by rwa [List.head?_append_of_ne_nil _ hs] at hc))]
  rw [List.reverse_append,
    dropWhile_append_all pyIsSpace t.reverse s.reverse
      (fun c hc => ht c (List.mem_reverse.mp hc)),
    dropWhile_id_of_head pyIsSpace s.reverse
      (fun c hc => hl c ((List.head?_reverse s) ▸ hc)),
    List.reverse_reverse]

theorem pySplitlinesAux_nob (l : PyStr) (h : ∀ c ∈ l, isLineBoundary c = false) :
    ∀ acc : PyStr, pySplitlinesAux l acc
      = if acc = [] ∧ l = [] then [] else [acc.reverse ++ l] := by
  induction l with
  | nil =>
    intro acc
    rw [pySplitlinesAux.eq_1]
    by_cases ha : acc = []
    · simp [ha]
    · simp [ha]
  | cons c l2 ih =>
    intro acc
    have hb : isLineBoundary c = false := h c (List.mem_cons_self _ _)
    rw [pySplitlinesAux.eq_3 acc c l2
      (fun r1 hc _ => by rw [hc] at hb; exact absurd hb (by decide)),
      if_neg (by rw [hb]; exact Bool.false_ne_true),
      ih (fun d hd => h d (List.mem_cons_of_mem _ hd)) (c :: acc)]
    simp

theorem pySplitlinesAux_crlf (l : PyStr) (hb : ∀ c ∈ l, isLineBoundary c = false) :
    ∀ (rest acc : PyStr), pySplitlinesAux (l ++ '\r' :: '\n' :: rest) acc
      = (acc.reverse ++ l) :: pySplitlinesAux rest [] := by
  induction l with
  | nil =>
    intro rest acc
    rw [List.nil_append, pySplitlinesAux.eq_2]
    simp
  | cons c l2 ih =>
    intro rest acc
    have hc : isLineBoundary c = false := hb c (List.mem_cons_self _ _)
    rw [List.cons_append, pySplitlinesAux.eq_3 acc c _
      (fun r1 he _ => by rw [he] at hc; exact absurd hc (by decide)),
      if_neg (by rw [hc]; exact Bool.false_ne_true),
      ih (fun d hd => hb d (List.mem_cons_of_mem _ hd)) rest (c :: acc)]
    simp

theorem pySplitlines_intercalate (L : List PyStr) :
    L ≠ [] → (∀ l ∈ L, l ≠ [] ∧ ∀ c ∈ l, isLineBoundary c = false) →
    pySplitlines (List.intercalate ['\r', '\n'] L) = L := by
  induction L with
  | nil => intro h _; exact absurd rfl h
  | cons x t ih =>
    intro _ hlines
    have hx := hlines x (List.mem_cons_self _ _)
    cases t with
    | nil =>
      rw [show List.intercalate ['\r', '\n'] [x] = x from by simp [List.intercalate]]
      unfold pySplitlines
      rw [pySplitlinesAux_nob x hx.2 [], if_neg (by simp [hx.1])]
      simp
    | cons y t2 =>
      rw [intercalate_cons_of_ne_nil ['\r', '\n'] x (y :: t2) (by simp),
        show x ++ ['\r', '\n'] ++ List.intercalate ['\r', '\n'] (y :: t2)
          = x ++ '\r' :: '\n' :: List.intercalate ['\r', '\n'] (y :: t2) from by simp]
      unfold pySplitlines
      rw [pySplitlinesAux_crlf x hx.2 _ []]
      rw [show pySplitlinesAux (List.intercalate ['\r', '\n'] (y :: t2)) []
        = pySplitlines (List.intercalate ['\r', '\n'] (y :: t2)) from rfl,
        ih (by simp) (fun l hl => hlines l (List.mem_cons_of_mem _ hl))]
      simp

theorem intercalate_ne_nil {α : Type} (sep : List α) (L : List (List α))
    (hne : L ≠ []) (hnil : ∀ l ∈ L, l ≠ []) : List.intercalate sep L ≠ [] := by
  match L, hne with
  | x :: t, _ =>
    cases t with
    | nil =>
      rw [show List.intercalate sep [x] = x from by simp [List.intercalate]]
      exact hnil x (List.mem_cons_self _ _)
    | cons y t2 =>
      rw [intercalate_cons_of_ne_nil sep x (y :: t2) (by simp)]
      intro he
      rcases List.append_eq_nil.mp he with ⟨h1, _⟩
      rcases List.append_eq_nil.mp h1 with ⟨h2, _⟩
      exact hnil x (List.mem_cons_self _ _) h2

theorem intercalate_head {α : Type} (sep : List α) (L : List (List α))
    (hne : L ≠ []) (hnil : ∀ l ∈ L, l ≠ []) :
    ∃ l ∈ L, (List.intercalate sep L).head? = l.head? := by
  match L, hne with
  | x :: t, _ =>
    refine ⟨x, List.mem_cons_self _ _, ?_⟩
    cases t with
    | nil => rw [show List.intercalate sep [x] = x from by simp [List.intercalate]]
    | cons y t2 =>
      rw [intercalate_cons_of_ne_nil sep x (y :: t2) (by simp), List.append_assoc,
        List.head?_append_of_ne_nil _ (hnil x (List.mem_cons_self _ _))]

theorem intercalate_getLast {α : Type} (sep : List α) (L : List (List α)) :
    L ≠ [] → (∀ l ∈ L, l ≠ []) →
    ∃ l ∈ L, (List.intercalate sep L).getLast? = l.getLast? := by
  induction L with
  | nil => intro h _; exact absurd rfl h
  | cons x t ih =>
    intro _ hnil
    cases t with
    | nil =>
      exact ⟨x, List.mem_cons_self _ _,
        by rw [show List.intercalate sep [x] = x from by simp [List.intercalate]]⟩
    | cons y t2 =>
      obtain ⟨l, hl, he⟩ := ih (by simp) (fun l hl => hnil l (List.mem_cons_of_mem _ hl))
      refine ⟨l, List.mem_cons_of_mem _ hl, ?_⟩
      have hint : List.intercalate sep (y :: t2) ≠ [] :=
        intercalate_ne_nil sep (y :: t2) (by simp)
          (fun l2 hl2 => hnil l2 (List.mem_cons_of_mem _ hl2))
      rw [intercalate_cons_of_ne_nil sep x (y :: t2) (by simp), List.append_assoc,
        List.getLast?_append_of_ne_nil _
          (fun hsep => hint (List.append_eq_nil.mp hsep).2),
        List.getLast?_append_of_ne_nil _ hint, he]

theorem needsQuoteMinimal_false (sep : Char) (cell : PyStr)
    (h : ∀ c ∈ cell, c ≠ sep ∧ isQuoteCh c = false ∧ isLineBoundary c = false) :
    needsQuoteMinimal sep cell = false := by
  unfold needsQuoteMinimal
  rw [List.any_eq_false]
  intro c hc
  obtain ⟨h1, h2, h3⟩ := h c hc
  have h2n : ¬(c = '"') := by
    intro he
    rw [he] at h2
    exact absurd h2 (by decide)
  have h3n := of_decide_eq_false h3
  push_neg at h3n
  simp only [decide_eq_true_eq]
  push_neg
  exact ⟨h1, h2n, h3n.2.1, h3n.1⟩

theorem map_encodeCell_id (sep : Char) (r : List PyStr)
    (h : ∀ cell ∈ r, needsQuoteMinimal sep cell = false) :
    r.map (encodeCell sep) = r := by
  induction r with
  | nil => rfl
  | cons cell t ih =>
    rw [List.map_cons, ih (fun x hx => h x (List.mem_cons_of_mem _ hx))]
    unfold encodeCell
    rw [if_neg (by rw [h cell (List.mem_cons_self _ _)]; exact Bool.false_ne_true)]

theorem renderRow_plain (sep : Char) (r : List PyStr) (hr2 : r ≠ [[]])
    (h : ∀ cell ∈ r, needsQuoteMinimal sep cell = false) :
    renderRow sep r = List.intercalate [sep] r := by
  unfold renderRow
  rw [if_neg hr2, map_encodeCell_id sep r h]

theorem write_rows_intercalate (sep : Char) (rows : List (List PyStr)) :
    rows ≠ [] → (∀ r ∈ rows, renderRow sep r = List.intercalate [sep] r) →
    write_rows rows sep
      = List.intercalate ['\r', '\n'] (rows.map (fun r => List.intercalate [sep] r))
        ++ ['\r', '\n'] := by
  induction rows with
  | nil => intro h _; exact absurd rfl h
  | cons r t ih =>
    intro _ hren
    cases t with
    | nil =>
      unfold write_rows
      simp [hren r (List.mem_cons_self _ _), List.intercalate]
    | cons y t2 =>
      have hw : write_rows (r :: y :: t2) sep
          = (renderRow sep r ++ ['\r', '\n']) ++ write_rows (y :: t2) sep := by
        unfold write_rows
        rw [List.flatMap_cons]
      rw [hw, ih (by simp) (fun x hx => hren x (List.mem_cons_of_mem _ hx)),
        hren r (List.mem_cons_self _ _)]
      rw [show List.map (fun r => List.intercalate [sep] r) (r :: y :: t2)
          = List.intercalate [sep] r
            :: List.map (fun r => List.intercalate [sep] r) (y :: t2)
        from List.map_cons _ _ _]
      rw [intercalate_cons_of_ne_nil ['\r', '\n'] (List.intercalate [sep] r)
        (List.map (fun r => List.intercalate [sep] r) (y :: t2)) (by simp)]
      simp [List.append_assoc]

theorem line_edges (sep : Char) (hsep : pyIsSpace sep = false) :
    ∀ r : List PyStr, r ≠ [] → r ≠ [[]] →
    (∀ cell ∈ r, ∀ c ∈ cell.head?, pyIsSpace c = false) →
    (∀ cell ∈ r, ∀ c ∈ cell.getLast?, pyIsSpace c = false) →
    List.intercalate [sep] r ≠ [] ∧
      (∀ c ∈ (List.intercalate [sep] r).head?, pyIsSpace c = false) ∧
      (∀ c ∈ (List.intercalate [sep] r).getLast?, pyIsSpace c = false) := by
  intro r
  induction r with
  | nil => intro h _ _ _; exact absurd rfl h
  | cons cell t ih =>
    intro _ hr2 hhead hlast
    cases t with
    | nil =>
      rw [show List.intercalate [sep] [cell] = cell from by simp [List.intercalate]]
      have hcne : cell ≠ [] := fun he => hr2 (by rw [he])
      exact ⟨hcne, hhead cell (List.mem_cons_self _ _), hlast cell (List.mem_cons_self _ _)⟩
    | cons y t2 =>
      rw [intercalate_cons_of_ne_nil [sep] cell (y :: t2) (by simp), List.append_assoc]
      refine ⟨by simp, ?_, ?_⟩
      · intro c hc
        cases cell with
        | nil =>
          rw [List.nil_append] at hc
          simp only [List.cons_append, List.head?_cons, Option.mem_def,
            Option.some.injEq] at hc
          rw [← hc]
          exact hsep
        | cons a t3 =>
          rw [List.head?_append_of_ne_nil _ (by simp)] at hc
          exact hhead (a :: t3) (List.mem_cons_self _ _) c hc
      · intro c hc
        rw [List.getLast?_append_of_ne_nil _ (by simp)] at hc
        by_cases hint : List.intercalate [sep] (y :: t2) = []
        · rw [hint] at hc
          simp only [List.append_nil, List.getLast?_singleton, Option.mem_def,
            Option.some.injEq] at hc
          rw [← hc]
          exact hsep
        · rw [List.getLast?_append_of_ne_nil _ hint] at hc
          have hr2y : y :: t2 ≠ [[]] := by
            intro he
            rw [he] at hint
            exact hint (by simp [List.intercalate])
          exact (ih (by simp) hr2y
            (fun x hx => hhead x (List.mem_cons_of_mem _ hx))
            (fun x hx => hlast x (List.mem_cons_of_mem _ hx))).2.2 c hc

/-! ### Claim C6 (round-trip) -/

/-- C6 (amended): serializing a table with a candidate delimiter `D` and
re-parsing reproduces the cell values, provided the cells are free of the
delimiter, of both quote characters, of tab and of line-boundary
characters, no cell starts or ends with whitespace, no cell exceeds the
reader's field-size limit, every row has at least one cell, no row is a
single empty cell, and the sniffer strategy fires with delimiter `D` on
the serialized text. -/
theorem C6_roundtrip (rows : List (List PyStr)) (D : Char) (dl : SniffedDialect)
    (hD : D ∈ candidateDelims)
    (hrows : rows ≠ [])
    (hrow : ∀ r ∈ rows, r ≠ [] ∧ r ≠ [[]])
    (hcell : ∀ r ∈ rows, ∀ cell ∈ r, ∀ c ∈ cell,
      c ≠ D ∧ isQuoteCh c = false ∧ isLineBoundary c = false ∧ c ≠ '\t')
    (hedge : ∀ r ∈ rows, ∀ cell ∈ r,
      (∀ c ∈ cell.head?, pyIsSpace c = false) ∧
      (∀ c ∈ cell.getLast?, pyIsSpace c = false))
    (hsize : ∀ r ∈ rows, ∀ cell ∈ r, cell.length ≤ fieldSizeLimit)
    (hs : sniffE (sampleOf (write_rows rows D)) = .ok dl)
    (hdl : dl.delimiter = D) :
    parse_text_to_rows (write_rows rows D) = rows := by
  have hDfacts : pyIsSpace D = false ∧ isLineBoundary D = false ∧ D ≠ '\t' ∧
      isQuoteCh D = false := by
    rcases show D = ',' ∨ D = ';' ∨ D = '|' from by simpa [candidateDelims] using hD
      with rfl | rfl | rfl <;> exact ⟨by decide, by decide, by decide, by decide⟩
  have hren : ∀ r ∈ rows, renderRow D r = List.intercalate [D] r := by
    intro r hr
    refine renderRow_plain D r (hrow r hr).2 ?_
    intro cell hc2
    refine needsQuoteMinimal_false D cell ?_
    intro c hc
    obtain ⟨h1, h2, h3, _⟩ := hcell r hr cell hc2 c hc
    exact ⟨h1, h2, h3⟩
  have hline_props : ∀ l ∈ rows.map (fun r => List.intercalate [D] r),
      l ≠ [] ∧ (∀ c ∈ l.head?, pyIsSpace c = false) ∧
      (∀ c ∈ l.getLast?, pyIsSpace c = false) ∧
      (∀ c ∈ l, c = D ∨ ∃ r ∈ rows, ∃ cell ∈ r, c ∈ cell) := by
    intro l hl
    rcases List.mem_map.mp hl with ⟨r, hr, rfl⟩
    have he := line_edges D hDfacts.1 r (hrow r hr).1 (hrow r hr).2
      (fun cell hc => (hedge r hr cell hc).1) (fun cell hc => (hedge r hr cell hc).2)
    refine ⟨he.1, he.2.1, he.2.2, ?_⟩
    intro c hc
    rcases mem_intercalate_sep D r c hc with h | ⟨cell, hc2, hcc⟩
    · exact Or.inl h
    · exact Or.inr ⟨r, hr, cell, hc2, hcc⟩
  have hline_bound : ∀ l ∈ rows.map (fun r => List.intercalate [D] r),
      ∀ c ∈ l, isLineBoundary c = false := by
    intro l hl c hc
    rcases (hline_props l hl).2.2.2 c hc with rfl | ⟨r, hr, cell, hc2, hc3⟩
    · exact hDfacts.2.1
    · exact (hcell r hr cell hc2 c hc3).2.2.1
  have htext := write_rows_intercalate D rows hrows hren
  have hLne : rows.map (fun r => List.intercalate [D] r) ≠ [] := by
    simpa [List.map_eq_nil_iff] using hrows
  have hlinene : ∀ l ∈ rows.map (fun r => List.intercalate [D] r), l ≠ [] :=
    fun l hl => (hline_props l hl).1
  have hbody_ne := intercalate_ne_nil ['\r', '\n'] _ hLne hlinene
  have hbody_head : ∀ c ∈ (List.intercalate ['\r', '\n']
      (rows.map (fun r => List.intercalate [D] r))).head?, pyIsSpace c = false := by
    obtain ⟨l, hl, he⟩ := intercalate_head ['\r', '\n'] _ hLne hlinene
    rw [he]
    exact (hline_props l hl).2.1
  have hbody_last : ∀ c ∈ (List.intercalate ['\r', '\n']
      (rows.map (fun r => List.intercalate [D] r))).getLast?, pyIsSpace c = false := by
    obtain ⟨l, hl, he⟩ := intercalate_getLast ['\r', '\n'] _ hLne hlinene
    rw [he]
    exact (hline_props l hl).2.2.1
  have hstrip : pyStrip (write_rows rows D)
      = List.intercalate ['\r', '\n'] (rows.map (fun r => List.intercalate [D] r)) := by
    rw [htext]
    exact pyStrip_append_ws _ _ hbody_ne (by decide) hbody_head hbody_last
  have hretained : retainedLines (write_rows rows D)
      = rows.map (fun r => List.intercalate [D] r) := by
    unfold retainedLines
    rw [hstrip, pySplitlines_intercalate _ hLne
      (fun l hl => ⟨hlinene l hl, hline_bound l hl⟩)]
    refine List.filter_eq_self.mpr ?_
    intro l hl
    refine decide_eq_true ?_
    rw [pyStrip_of_ends l (hline_props l hl).2.1 (hline_props l hl).2.2.1]
    exact (hline_props l hl).1
  have hsample_mem : ∀ c ∈ sampleOf (write_rows rows D),
      c = '\n' ∨ c = D ∨ ∃ r ∈ rows, ∃ cell ∈ r, c ∈ cell := by
    intro c hc
    unfold sampleOf at hc
    rcases mem_intercalate_sep '\n' _ c hc with rfl | ⟨l, hl, hcl⟩
    · exact Or.inl rfl
    · have hl2 := List.take_subset 20 _ hl
      rw [hretained] at hl2
      rcases (hline_props l hl2).2.2.2 c hcl with rfl | hmem
      · exact Or.inr (Or.inl rfl)
      · exact Or.inr (Or.inr hmem)
  have ht : '\t' ∉ sampleOf (write_rows rows D) := by
    intro hmem
    rcases hsample_mem '\t' hmem with he | he | ⟨r, hr, cell, hc2, hc3⟩
    · exact absurd he (by decide)
    · exact hDfacts.2.2.1 he.symm
    · exact (hcell r hr cell hc2 '\t' hc3).2.2.2 rfl
  have hqs : ∀ c ∈ sampleOf (write_rows rows D), isQuoteCh c = false := by
    intro c hc
    rcases hsample_mem c hc with rfl | rfl | ⟨r, hr, cell, hc2, hc3⟩
    · decide
    · exact hDfacts.2.2.2
    · exact (hcell r hr cell hc2 c hc3).2.1
  have hsn := sniffE_noquotes (sampleOf (write_rows rows D)) hqs
  rw [hs] at hsn
  cases hg : guessDelimiter (sampleOf (write_rows rows D)) with
  | none =>
    rw [hg] at hsn
    exact absurd hsn (by simp)
  | some p =>
    obtain ⟨d0, sis0⟩ := p
    rw [hg] at hsn
    have hdleq : dl = ⟨d0, '"', false, sis0⟩ := Except.ok.inj hsn
    subst hdleq
    have hd0 : D = d0 := Eq.symm hdl
    subst hd0
    have hsep2 : (⟨D, '"', false, sis0⟩ : SniffedDialect).skipinitialspace = true →
        (⟨D, '"', false, sis0⟩ : SniffedDialect).delimiter ≠ ' ' := by
      intro _
      show D ≠ ' '
      intro he
      have hws := hDfacts.1
      rw [he] at hws
      exact absurd hws (by decide)
    have hlines2 : ∀ ln ∈ retainedLines (write_rows rows D), ln ≠ [] ∧
        ∀ c ∈ ln, c ≠ (⟨D, '"', false, sis0⟩ : SniffedDialect).quotechar ∧
          c ≠ '\r' ∧ c ≠ '\n' := by
      intro ln hln
      rw [hretained] at hln
      refine ⟨(hline_props ln hln).1, ?_⟩
      intro c hc
      have hb := hline_bound ln hln c hc
      have hq2 : isQuoteCh c = false := by
        rcases (hline_props ln hln).2.2.2 c hc with rfl | ⟨r, hr, cell, hc2, hc3⟩
        · exact hDfacts.2.2.2
        · exact (hcell r hr cell hc2 c hc3).2.1
      refine ⟨?_, ?_, ?_⟩
      · show c ≠ '"'
        intro he
        rw [he] at hq2
        exact absurd hq2 (by decide)
      · intro he
        rw [he] at hb
        exact absurd hb (by decide)
      · intro he
        rw [he] at hb
        exact absurd hb (by decide)
    have hpieces : ∀ ln ∈ retainedLines (write_rows rows D),
        ∀ p ∈ pySplitChar (⟨D, '"', false, sis0⟩ : SniffedDialect).delimiter ln,
          p.length ≤ fieldSizeLimit := by
      intro ln hln p hp
      rw [hretained] at hln
      rcases List.mem_map.mp hln with ⟨r, hr, rfl⟩
      rw [show pySplitChar (⟨D, '"', false, sis0⟩ : SniffedDialect).delimiter
            (List.intercalate [D] r)
          = pySplitChar D (List.intercalate [D] r) from rfl,
        pySplitChar_intercalate D r (hrow r hr).1
          (fun cell hc hmem => (hcell r hr cell hc D hmem).1 rfl)] at hp
      exact hsize r hr p hp
    have hread := readRowsE_clean ⟨D, '"', false, sis0⟩ hsep2
      (retainedLines (write_rows rows D)) hlines2 hpieces
    have hnl2 : retainedLines (write_rows rows D) ≠ [] := by
      rw [hretained]
      exact hLne
    have hparse := parse_sniffed_eq (write_rows rows D) ht _ hs _ hread hnl2
    rw [hparse, hretained, List.map_map]
    refine Eq.trans (List.map_congr_left ?_) (List.map_id rows)
    intro r hr
    show ((pySplitChar D (List.intercalate [D] r)).map
      (sisDrop ⟨D, '"', false, sis0⟩)) = id r
    rw [pySplitChar_intercalate D r (hrow r hr).1
      (fun cell hc hmem => (hcell r hr cell hc D hmem).1 rfl)]
    show r.map (sisDrop ⟨D, '"', false, sis0⟩) = r
    refine Eq.trans (List.map_congr_left ?_) (List.map_id r)
    intro cell hc
    show sisDrop ⟨D, '"', false, sis0⟩ cell = id cell
    unfold sisDrop
    dsimp only
    cases sis0 with
    | false => rfl
    | true =>
      rw [if_pos rfl]
      refine dropWhile_id_of_head _ cell ?_
      intro c hc2
      have hws := (hedge r hr cell hc).1 c hc2
      simp only [decide_eq_false_iff_not]
      intro he
      rw [he] at hws
      exact absurd hws (by decide)

theorem C6_roundtrip_witness :
    parse_text_to_rows (write_rows
      [[("a" : String).toList, ("b" : String).toList],
       [("c" : String).toList, ("d" : String).toList]] ',')
    = [[("a" : String).toList, ("b" : String).toList],
       [("c" : String).toList, ("d" : String).toList]] :=
  C6_roundtrip
    [[("a" : String).toList, ("b" : String).toList],
     [("c" : String).toList, ("d" : String).toList]]
    ',' ⟨',', '"', false, false⟩ (by decide) (by decide) (by decide) (by decide)
    (by decide) (by decide) (by decide) (by decide)

end AnkiCSV
